import Mathlib

/-!
# Verification of the polkaVM lending/borrowing order-book core

A shallow embedding of the matching core (`src/types/rational.rs`,
`src/types/interval.rs`, `src/types/order.rs`, `src/handlers/matching.rs`)
together with proofs settling the specification claims.

Modelling conventions:
* `i64` values are Lean `Int`s; every Rust operation that can overflow is
  guarded by an explicit range check against `[-2^63, 2^63 - 1]`.
* A Rust panic/abort (capacity `panic!`, `expect` on a failed comparison,
  arithmetic overflow of an unchecked operation, fatal index error) is
  modelled as `Option.none` at the outermost layer; a recoverable
  `Result::Err` is `Except.error`.
* `heapless::String` (a bounded byte string) is modelled as `List Char`; its
  `Ord` instance is byte-wise lexicographic, which is the lexicographic
  `LinearOrder` on `List Char`.
* `heapless::FnvIndexMap` is modelled as an association list with the map's
  observable behaviour: keyed lookup, value replacement on duplicate insert,
  append of fresh keys while below capacity, keyed removal.
* Loops that are not structurally recursive (the Euclid loop, binary search)
  take an explicit fuel argument; fuel exhaustion is `none`, and the fuel
  supplied at every call site is proved (and at concrete inputs computed)
  to be sufficient, so it never fires on the paths the theorems describe.
-/

/-! ## Machine-integer model -/

def i64Min : Int := -(2 ^ 63)

def i64Max : Int := 2 ^ 63 - 1

/-- Representability of `x` as a 64-bit signed integer. -/
def inI64 (x : Int) : Prop := i64Min ≤ x ∧ x ≤ i64Max

instance (x : Int) : Decidable (inI64 x) := by
  unfold inI64; infer_instance

/-- Rust `i64::checked_mul`. -/
def checkedMul (a b : Int) : Option Int :=
  if inI64 (a * b) then some (a * b) else none

/-- Three-way comparison in a linear order (the shape of Rust `Ord::cmp`). -/
def cmp3 {K : Type} [LinearOrder K] (a b : K) : Ordering :=
  if a < b then .lt else if b < a then .gt else .eq

/-! ## `Rational` (src/types/rational.rs) -/

/-- Model of `Rational { num: i64, den: i64 }`; fields are private in the source, so
every value the program ever holds comes out of `Rational::new`. -/
structure Rational where
  num : Int
  den : Int
deriving DecidableEq

/-- The Euclid loop of `gcd` (lines 25–32): `while b != 0 { t = b; b = a % b;
a = t } ; a.abs()`. Rust `%` on `i64` is truncated remainder (`Int.tmod`);
it aborts on `i64::MIN % -1`, and the final `a.abs()` aborts on `i64::MIN`. -/
def gcdLoop : Nat → Int → Int → Option Int
  | 0, _, _ => none
  | fuel + 1, a, b =>
    if b = 0 then (if a = i64Min then none else some (a.natAbs : Int))
    else if a = i64Min ∧ b = -1 then none
    else gcdLoop fuel b (a.tmod b)

/-- Model of `Rational::new` (lines 42–52).  The two unchecked overflow sites are
`sign * (num / g)` (overflows only at `-i64::MIN`) and `den.abs()`
(overflows only at `den = i64::MIN`). -/
def Rational.new (num den : Int) : Option (Except String Rational) :=
  if den = 0 then some (.error "Denominator cannot be zero")
  else
    let sign : Int := if den < 0 then -1 else 1
    (gcdLoop (den.natAbs + 1) num den).bind fun g =>
      let q := num.tdiv g
      if inI64 (sign * q) then
        if den = i64Min then none
        else some (.ok ⟨sign * q, ((den.natAbs : Int)).tdiv g⟩)
      else none

/-- Rust whitespace trim (`str::trim`); the relevant inputs are ASCII. -/
def isRustWs (c : Char) : Bool := c = ' ' || c = '\t' || c = '\n' || c = '\r'

def trimChars (cs : List Char) : List Char :=
  ((cs.dropWhile isRustWs).reverse.dropWhile isRustWs).reverse

/-- Decimal digit accumulator for `i64::from_str`; `none` on a non-digit. -/
def digitsVal : List Char → Nat → Option Nat
  | [], acc => some acc
  | c :: cs, acc =>
    if c.isDigit then digitsVal cs (10 * acc + (c.toNat - 48)) else none

/-- Rust `str::parse::<i64>()`: optional `+`/`-` sign, one or more ASCII
digits, value within the `i64` range; anything else is `Err`. -/
def parseI64 (cs : List Char) : Option Int :=
  let sgd : Int × List Char :=
    match cs with
    | '+' :: r => (1, r)
    | '-' :: r => (-1, r)
    | r => (1, r)
  match sgd.2 with
  | [] => none
  | _ :: _ =>
    (digitsVal sgd.2 0).bind fun v =>
      let x := sgd.1 * (v : Int)
      if inI64 x then some x else none

/-- Model of `Rational::from_decimal_str` (lines 55–70).  `10i64.pow` and the
numerator arithmetic `int_val.abs() * base + frac_val` and
`signed * numerator` are unchecked, hence abort (`none`) on overflow. -/
def Rational.fromDecimalStr (s : String) : Option (Except String Rational) :=
  let cs := trimChars s.data
  let p := cs.span (fun c => c != '.')
  match p.2 with
  | [] =>
    match parseI64 cs with
    | none => some (.error "Invalid integer")
    | some i => Rational.new i 1
  | _ :: frac =>
    if (10 : Int) ^ frac.length > i64Max then none
    else
      let base : Int := 10 ^ frac.length
      match parseI64 p.1 with
      | none => some (.error "Invalid integer part")
      | some intVal =>
        match parseI64 frac with
        | none => some (.error "Invalid fractional part")
        | some fracVal =>
          let signed : Int := if intVal < 0 then -1 else 1
          if intVal = i64Min then none
          else
            let m := (intVal.natAbs : Int) * base
            if ¬ inI64 m then none
            else if ¬ inI64 (m + fracVal) then none
            else if ¬ inI64 (signed * (m + fracVal)) then none
            else Rational.new (signed * (m + fracVal)) base

/-- Model of `Rational::checked_sub` (lines 73–84).  The two cross products and the
denominator product use `checked_mul`; the subtraction `ad - cb` is
unchecked and aborts on overflow (before the denominator is computed). -/
def Rational.checkedSub (a b : Rational) : Option (Except String Rational) :=
  match checkedMul a.num b.den with
  | none => some (.error "Overflow computing numerator")
  | some ad =>
    match checkedMul b.num a.den with
    | none => some (.error "Overflow computing numerator")
    | some cb =>
      if inI64 (ad - cb) then
        match checkedMul a.den b.den with
        | none => some (.error "Overflow computing denominator")
        | some dd => Rational.new (ad - cb) dd
      else none

/-- Model of `PartialOrd for Rational` (lines 110–114):
`(num * other.den).checked? .partial_cmp (other.num * den).checked?`;
`none` exactly when either cross product overflows. -/
def Rational.pcmp (a b : Rational) : Option Ordering :=
  (checkedMul a.num b.den).bind fun x =>
    (checkedMul b.num a.den).map fun y => cmp3 x y

/-- Rust `<=` on `Rational` (`PartialOrd::le`): `true` iff the partial
comparison is defined and is `Less` or `Equal`; `false` on overflow. -/
def Rational.leb (a b : Rational) : Bool :=
  match Rational.pcmp a b with
  | some .lt => true
  | some .eq => true
  | _ => false

/-- Rust `>` on `Rational` (`PartialOrd::gt`): `false` on overflow. -/
def Rational.gtb (a b : Rational) : Bool :=
  match Rational.pcmp a b with
  | some .gt => true
  | _ => false

/-- Rust `Ord::max` on `Rational` (`Ord::cmp` panics on overflow):
`if cmp(v1, v2) == Greater { v1 } else { v2 }`. -/
def Rational.omax (a b : Rational) : Option Rational :=
  (Rational.pcmp a b).map fun c => if c = .gt then a else b

/-- Rust `Ord::min` on `Rational`:
`if cmp(v1, v2) == Greater { v2 } else { v1 }`. -/
def Rational.omin (a b : Rational) : Option Rational :=
  (Rational.pcmp a b).map fun c => if c = .gt then b else a

/-! ## `Interval` (src/types/interval.rs) and `Order` (src/types/order.rs) -/

structure IntervalR where
  min : Rational
  max : Rational
deriving DecidableEq

/-- Model of `Interval::new` (interval.rs lines 14–20): `min <= max` via the
`Rational` partial order (panicking `Ord` is not used here; Rust `<=`
is `false` on overflow, producing the range-inverted error). -/
def IntervalR.new (mn mx : Rational) : Except String IntervalR :=
  if mn.leb mx then .ok ⟨mn, mx⟩ else .error "min must be <= max"

/-- Model of `Ord for Interval` (interval.rs lines 23–37): compare the
mins, then the maxes; each `Rational` `cmp` panics (`none`) on overflow, and the
`max` comparison is only evaluated when the `min`s compare equal. -/
def IntervalR.cmpo (a b : IntervalR) : Option Ordering :=
  (Rational.pcmp a.min b.min).bind fun c =>
    if c = .eq then Rational.pcmp a.max b.max else some c

inductive OrderType
  | LEND
  | BORROW
deriving DecidableEq

inductive OrderStatus
  | OPEN
  | PARTIALLY_FILLED
  | FILLED
  | EXPIRED
deriving DecidableEq

def MAX_ORDERS : Nat := 32

def MAX_KEYS : Nat := 16

def STR_CAP : Nat := 32

/-- One resting order (order.rs lines 40–49).  `collateral`, `amount` and
`remaining_amount` are `u128`; no arithmetic is ever performed on them in
the core, so they are plain `Nat`s here. -/
structure Order where
  order_id : List Char
  order_type : OrderType
  status : OrderStatus
  asset : List Char
  collateral : Nat
  amount : Nat
  remaining_amount : Nat
  vtl_range : IntervalR
deriving DecidableEq

/-- Model of `Order::new` (order.rs lines 109–131): bounded-string conversions fail
past `STR_CAP`; status starts `OPEN` and `remaining_amount = amount`. -/
def Order.new (order_id : List Char) (order_type : OrderType)
    (asset : List Char) (collateral amount : Nat) (vtl_range : IntervalR) :
    Except String Order :=
  if STR_CAP < order_id.length then .error "order_id too long"
  else if STR_CAP < asset.length then .error "asset too long"
  else .ok
    { order_id := order_id, order_type := order_type,
      status := OrderStatus.OPEN, asset := asset, collateral := collateral,
      amount := amount, remaining_amount := amount, vtl_range := vtl_range }

structure OrderBook where
  orders_by_vtl : List Order
  orders_by_id : List (List Char × Order)
deriving DecidableEq

/-- Model of `OrderBook::new` (order.rs lines 135–140). -/
def OrderBook.new : OrderBook := ⟨[], []⟩

/-- The comparator closure of `add_order` (order.rs lines 171–178):
interval comparison (panicking on overflow) then `order_id` tie-break. -/
def orderCmp (o1 o2 : Order) : Option Ordering :=
  (IntervalR.cmpo o1.vtl_range o2.vtl_range).map fun v =>
    if v ≠ .eq then v else cmp3 o1.order_id o2.order_id

/-- The binary-search loop shared by `slice::binary_search_by` (used by
`insert_sorted` and `match_borrow`) and the hand-written search of
`match_lend` (matching.rs lines 11–27): window `[lo, hi)`, probe at
`lo + (hi - lo) / 2`; `Less` moves `lo`, `Greater` moves `hi`, `Equal`
returns `Ok(mid)` (`.inl`); an exhausted window returns `Err(lo)` (`.inr`).
A panicking comparator aborts the search (`none`). -/
def bsGo {α : Type} (f : α → Option Ordering) (xs : List α) :
    Nat → Nat → Nat → Option (Nat ⊕ Nat)
  | 0, lo, hi => if lo < hi then none else some (.inr lo)
  | fuel + 1, lo, hi =>
    if lo < hi then
      match xs[lo + (hi - lo) / 2]? with
      | none => none
      | some x =>
        match f x with
        | none => none
        | some .lt => bsGo f xs fuel (lo + (hi - lo) / 2 + 1) hi
        | some .eq => some (.inl (lo + (hi - lo) / 2))
        | some .gt => bsGo f xs fuel lo (lo + (hi - lo) / 2)
    else some (.inr lo)

def binSearchBy {α : Type} (f : α → Option Ordering) (xs : List α) :
    Option (Nat ⊕ Nat) :=
  bsGo f xs xs.length 0 xs.length

/-- Model of `heapless::Vec::insert` at `MAX_ORDERS` capacity: aborts on an index
past the length, silently keeps the vector when full (the source drops the
capacity error with `.ok()`), inserts otherwise. -/
def hvInsert (xs : List Order) (idx : Nat) (o : Order) : Option (List Order) :=
  if xs.length < idx then none
  else if MAX_ORDERS ≤ xs.length then some xs
  else some (xs.take idx ++ o :: xs.drop idx)

/-- Model of `FnvIndexMap::insert` at `MAX_KEYS` capacity: replaces the value of an
existing key in place, appends a fresh key while below capacity, and keeps
the map unchanged when full (the source drops the error with `.ok()`). -/
def mapInsert (m : List (List Char × Order)) (k : List Char) (v : Order) :
    List (List Char × Order) :=
  if (m.find? (fun p => decide (p.1 = k))).isSome then
    m.map (fun p => if p.1 = k then (p.1, v) else p)
  else if m.length < MAX_KEYS then m ++ [(k, v)] else m

/-- Model of `OrderBook::add_order` (order.rs lines 165–180): aborts (`none`) when
either index holds `MAX_KEYS` orders, then sorted insert by binary search
into `orders_by_vtl`, then keyed insert into `orders_by_id`. -/
def OrderBook.add_order (book : OrderBook) (o : Order) : Option OrderBook :=
  if book.orders_by_vtl.length = MAX_KEYS ∨ book.orders_by_id.length = MAX_KEYS
  then none
  else
    (binSearchBy (fun probe => orderCmp probe o) book.orders_by_vtl).bind
      fun r =>
        (hvInsert book.orders_by_vtl (Sum.elim id id r) o).map fun vtl' =>
          { orders_by_vtl := vtl',
            orders_by_id := mapInsert book.orders_by_id o.order_id o }

def lookupId (m : List (List Char × Order)) (k : List Char) : Option Order :=
  (m.find? (fun p => decide (p.1 = k))).map (fun p => p.2)

/-- Model of `OrderBook::get_order_by_id` (order.rs lines 150–152). -/
def OrderBook.get_order_by_id (book : OrderBook) (id : List Char) :
    Option Order :=
  lookupId book.orders_by_id id

/-- Model of `OrderBook::remove_order` (order.rs lines 182–184): keyed removal from
`orders_by_id` only; returns the removed order, or `none` on a miss. -/
def OrderBook.remove_order (book : OrderBook) (id : List Char) :
    Option Order × OrderBook :=
  match lookupId book.orders_by_id id with
  | none => (none, book)
  | some o =>
    (some o,
     { book with
        orders_by_id := book.orders_by_id.eraseP (fun p => decide (p.1 = id)) })

/-! ## Matching (src/handlers/matching.rs) -/

/-- The forward scan of `match_lend` (matching.rs lines 30–39): skip
non-`OPEN` entries; `lower = o.min.max(lend_min)`, `upper =
o.max.min(lend_max)` (both via panicking `Ord`), return the entry when
`lower <= upper` (Rust `<=`, `false` on overflow). -/
def scanLend (lendMin lendMax : Rational) : List Order → Option (Option Order)
  | [] => some none
  | o :: rest =>
    if o.status ≠ OrderStatus.OPEN then scanLend lendMin lendMax rest
    else
      match Rational.omax o.vtl_range.min lendMin,
            Rational.omin o.vtl_range.max lendMax with
      | some lower, some upper =>
        if lower.leb upper then some (some o) else scanLend lendMin lendMax rest
      | _, _ => none

/-- Model of `match_lend` (matching.rs lines 6–41): hand-written binary search for
the first entry with `min > lend_min` (the probe comparator returns `Less`
exactly when `probe.min <= lend_min`), then the forward overlap scan. -/
def matchLend (borrow_orderbook : OrderBook) (lend_order : Order) :
    Option (Option Order) :=
  (bsGo (fun probe =>
        some (if probe.vtl_range.min.leb lend_order.vtl_range.min
          then .lt else .gt))
      borrow_orderbook.orders_by_vtl
      borrow_orderbook.orders_by_vtl.length 0
      borrow_orderbook.orders_by_vtl.length).bind
    fun r =>
      scanLend lend_order.vtl_range.min lend_order.vtl_range.max
        (borrow_orderbook.orders_by_vtl.drop (Sum.elim id id r))

/-- Model of `match_borrow` (matching.rs lines 44–80): binary search with the same
comparator, bail out at `idx = 0`, then a single check of the entry at
`idx - 1`: it must be `OPEN`, and it is rejected when `lower > upper`
(Rust `>`, `false` on overflow). -/
def matchBorrow (lend_orderbook : OrderBook) (borrow_order : Order) :
    Option (Option Order) :=
  (binSearchBy (fun probe =>
        some (if probe.vtl_range.min.leb borrow_order.vtl_range.min
          then .lt else .gt))
      lend_orderbook.orders_by_vtl).bind
    fun r =>
      if Sum.elim id id r = 0 then some none
      else
        match lend_orderbook.orders_by_vtl[Sum.elim id id r - 1]? with
        | none => none
        | some o =>
          if o.status ≠ OrderStatus.OPEN then some none
          else
            match Rational.omax o.vtl_range.min borrow_order.vtl_range.min,
                  Rational.omin o.vtl_range.max borrow_order.vtl_range.max with
            | some lower, some upper =>
              some (if lower.gtb upper then none else some o)
            | _, _ => none

/-! ## Specification-side definitions

These follow the wording of the specification (value-level comparisons of
rationals by cross multiplication, first position with `min` strictly
greater, overlap as `max` of the `min`s against `min` of the `max`es); they
are compared with the code-side functions in the refinement theorems. -/

/-- Value-level strict order of two rationals by cross multiplication. -/
def rltB (a b : Rational) : Bool := decide (a.num * b.den < b.num * a.den)

/-- Value-level non-strict order by cross multiplication. -/
def rleB (a b : Rational) : Bool := decide (a.num * b.den ≤ b.num * a.den)

/-- The spec's partition point: first position whose entry's
`vtl_range.min` is strictly greater than `m`. -/
def specFirstGT (xs : List Order) (m : Rational) : Nat :=
  xs.findIdx (fun o => rltB m o.vtl_range.min)

/-- Value-level maximum of two rationals. -/
def specMaxR (a b : Rational) : Rational := if rltB a b then b else a

/-- Value-level minimum of two rationals. -/
def specMinR (a b : Rational) : Rational := if rltB b a then b else a

/-- The spec's overlap test: max of the two `min`s ≤ min of the two
`max`es. -/
def specOverlapB (a b : IntervalR) : Bool :=
  rleB (specMaxR a.min b.min) (specMinR a.max b.max)

/-- The function `match_lend` as the specification words it: scan the suffix starting at
the partition point for the first `OPEN` entry whose range overlaps. -/
def specMatchLend (book : OrderBook) (lend : Order) : Option Order :=
  (book.orders_by_vtl.drop
      (specFirstGT book.orders_by_vtl lend.vtl_range.min)).find?
    (fun o =>
      decide (o.status = OrderStatus.OPEN) &&
        specOverlapB o.vtl_range lend.vtl_range)

/-- The function `match_borrow` as the specification words it: no match at partition
point `0`; otherwise exactly the predecessor entry, returned iff it is
`OPEN` and overlapping. -/
def specMatchBorrow (book : OrderBook) (borrow : Order) : Option Order :=
  let idx := specFirstGT book.orders_by_vtl borrow.vtl_range.min
  if idx = 0 then none
  else
    match book.orders_by_vtl[idx - 1]? with
    | none => none
    | some o =>
      if o.status = OrderStatus.OPEN ∧ specOverlapB o.vtl_range borrow.vtl_range
      then some o else none

/-- Both rationals of an order's range have positive denominators — the
representation invariant `Rational::new` establishes (fields are private in
the source, so every reachable `Rational` satisfies it). -/
def densPos (o : Order) : Prop :=
  0 < o.vtl_range.min.den ∧ 0 < o.vtl_range.max.den

/-- Both cross products of a pair of rationals are representable, i.e.
their comparison is defined (does not overflow). -/
def cmpOK (a b : Rational) : Prop :=
  inI64 (a.num * b.den) ∧ inI64 (b.num * a.den)

/-- Value equality of two rationals by cross multiplication. -/
def reqP (a b : Rational) : Prop := a.num * b.den = b.num * a.den

/-- The order book's sort key order, as the spec words it: lexicographic on
`(vtl_range, order_id)` with `vtl_range` itself lexicographic on
`(min, max)`, rationals compared by value. -/
def keyLE (o1 o2 : Order) : Prop :=
  rltB o1.vtl_range.min o2.vtl_range.min = true ∨
    (reqP o1.vtl_range.min o2.vtl_range.min ∧
      (rltB o1.vtl_range.max o2.vtl_range.max = true ∨
        (reqP o1.vtl_range.max o2.vtl_range.max ∧ o1.order_id ≤ o2.order_id)))

instance (o1 o2 : Order) : Decidable (keyLE o1 o2) := by
  unfold keyLE reqP; infer_instance

/-- The value of a rational (meaningful when the denominator is positive). -/
def rQ (a : Rational) : ℚ := (a.num : ℚ) / (a.den : ℚ)

/-- Proof-side sort key of an order: the rational values of the range
endpoints and the identifier, ordered lexicographically. -/
def okey (o : Order) : ℚ ×ₗ (ℚ ×ₗ List Char) :=
  toLex (rQ o.vtl_range.min, toLex (rQ o.vtl_range.max, o.order_id))

example : Rational.new 6 4 = some (.ok ⟨3, 2⟩) := rfl
example : Rational.new (-6) 4 = some (.ok ⟨-3, 2⟩) := rfl
example : Rational.new 6 (-4) = some (.ok ⟨-3, 2⟩) := rfl
example : Rational.new 1 0 = some (.error "Denominator cannot be zero") := rfl
example : Rational.fromDecimalStr "12.34" = some (.ok ⟨617, 50⟩) := rfl
example : Rational.fromDecimalStr "-3" = some (.ok ⟨-3, 1⟩) := rfl
example : Rational.fromDecimalStr "0.1" = some (.ok ⟨1, 10⟩) := rfl

/-! ## Basic lemmas about the comparison layer -/

instance {ε α : Type} [DecidableEq ε] [DecidableEq α] :
    DecidableEq (Except ε α) := fun x y =>
  match x, y with
  | .error a, .error b =>
    if h : a = b then isTrue (by rw [h])
    else isFalse (fun hh => h (by cases hh; rfl))
  | .ok a, .ok b =>
    if h : a = b then isTrue (by rw [h])
    else isFalse (fun hh => h (by cases hh; rfl))
  | .error _, .ok _ => isFalse (fun hh => by cases hh)
  | .ok _, .error _ => isFalse (fun hh => by cases hh)

theorem cmp3_eq_lt {K : Type} [LinearOrder K] {a b : K} :
    cmp3 a b = .lt ↔ a < b := by
  unfold cmp3
  split_ifs with h1 h2 <;> simp_all

theorem cmp3_eq_gt {K : Type} [LinearOrder K] {a b : K} :
    cmp3 a b = .gt ↔ b < a := by
  unfold cmp3
  split_ifs with h1 h2 <;> simp_all
  exact le_of_lt h1

theorem cmp3_eq_eq {K : Type} [LinearOrder K] {a b : K} :
    cmp3 a b = .eq ↔ a = b := by
  unfold cmp3
  split_ifs with h1 h2 <;> simp_all
  · exact ne_of_lt h1
  · exact (ne_of_lt h2).symm
  · exact le_antisymm h2 h1

theorem checkedMul_eq_some {a b x : Int} :
    checkedMul a b = some x ↔ inI64 (a * b) ∧ x = a * b := by
  unfold checkedMul
  split_ifs with h <;> simp_all
  exact eq_comm

theorem checkedMul_eq_none {a b : Int} :
    checkedMul a b = none ↔ ¬ inI64 (a * b) := by
  unfold checkedMul
  split_ifs with h <;> simp_all

theorem Rational.pcmp_of_ok {a b : Rational} (h : cmpOK a b) :
    Rational.pcmp a b = some (cmp3 (a.num * b.den) (b.num * a.den)) := by
  unfold Rational.pcmp
  rw [checkedMul, if_pos h.1, checkedMul, if_pos h.2]
  rfl

theorem Rational.pcmp_eq_none {a b : Rational} :
    Rational.pcmp a b = none ↔ ¬ cmpOK a b := by
  unfold Rational.pcmp cmpOK
  unfold checkedMul
  split_ifs with h1 h2 <;> simp_all

theorem Rational.cmpOK_of_pcmp_some {a b : Rational} {c : Ordering}
    (h : Rational.pcmp a b = some c) : cmpOK a b := by
  by_contra hn
  rw [← Rational.pcmp_eq_none] at hn
  rw [h] at hn
  cases hn

/-! ## Bridging cross-product comparisons to rational values -/

theorem crossLt_iff_rQ {a b : Rational} (ha : 0 < a.den) (hb : 0 < b.den) :
    a.num * b.den < b.num * a.den ↔ rQ a < rQ b := by
  unfold rQ
  rw [div_lt_div_iff₀ (by exact_mod_cast ha) (by exact_mod_cast hb)]
  exact_mod_cast Iff.rfl

theorem crossLe_iff_rQ {a b : Rational} (ha : 0 < a.den) (hb : 0 < b.den) :
    a.num * b.den ≤ b.num * a.den ↔ rQ a ≤ rQ b := by
  unfold rQ
  rw [div_le_div_iff₀ (by exact_mod_cast ha) (by exact_mod_cast hb)]
  exact_mod_cast Iff.rfl

theorem crossEq_iff_rQ {a b : Rational} (ha : 0 < a.den) (hb : 0 < b.den) :
    a.num * b.den = b.num * a.den ↔ rQ a = rQ b := by
  constructor
  · intro h
    exact le_antisymm ((crossLe_iff_rQ ha hb).mp h.le)
      ((crossLe_iff_rQ hb ha).mp (by linarith))
  · intro h
    have h1 := (crossLe_iff_rQ ha hb).mpr h.le
    have h2 := (crossLe_iff_rQ hb ha).mpr h.ge
    linarith

theorem cmp3_cross_eq_cmp3_rQ {a b : Rational} (ha : 0 < a.den)
    (hb : 0 < b.den) :
    cmp3 (a.num * b.den) (b.num * a.den) = cmp3 (rQ a) (rQ b) := by
  unfold cmp3
  by_cases h1 : a.num * b.den < b.num * a.den
  · rw [if_pos h1, if_pos ((crossLt_iff_rQ ha hb).mp h1)]
  · rw [if_neg h1, if_neg (fun hc => h1 ((crossLt_iff_rQ ha hb).mpr hc))]
    by_cases h2 : b.num * a.den < a.num * b.den
    · rw [if_pos h2, if_pos ((crossLt_iff_rQ hb ha).mp (by linarith))]
    · rw [if_neg h2, if_neg (fun hc => h2 ((crossLt_iff_rQ hb ha).mpr
        (by linarith)))]

/-- Uniqueness of the reduced representation: two reduced fractions with
positive denominators and equal cross products are structurally equal. -/
theorem Rational.reduced_eq {a b : Rational} (ha : 0 < a.den) (hb : 0 < b.den)
    (hga : Int.gcd a.num a.den = 1) (hgb : Int.gcd b.num b.den = 1)
    (h : a.num * b.den = b.num * a.den) : a = b := by
  have hcopa : IsCoprime a.num a.den := Int.isCoprime_iff_gcd_eq_one.mpr hga
  have hcopb : IsCoprime b.num b.den := Int.isCoprime_iff_gcd_eq_one.mpr hgb
  have h1 : a.den ∣ a.num * b.den := ⟨b.num, by rw [h]; ring⟩
  have h2 : b.den ∣ b.num * a.den := ⟨a.num, by rw [← h]; ring⟩
  have hd1 : a.den ∣ b.den := hcopa.symm.dvd_of_dvd_mul_left h1
  have hd2 : b.den ∣ a.den := hcopb.symm.dvd_of_dvd_mul_left h2
  have hden : a.den = b.den := Int.dvd_antisymm ha.le hb.le hd1 hd2
  have hnum : a.num = b.num := by
    apply mul_right_cancel₀ (b := a.den) (by positivity)
    rw [← hden] at h
    linarith
  cases a; cases b
  simp_all

/-! ## Claim C8: ordering by cross multiplication -/

/-- C8: for every pair of (reduced, positive-denominator) `Rational`s whose
two cross products are representable in `i64`, the comparison agrees with
cross multiplication (`a < b` iff `a.num * b.den < b.num * a.den`) and
exactly one of `a < b`, `a = b`, `a > b` holds; when either cross product
overflows, the partial comparison is absent (`None`) rather than wrapped. -/
theorem rat_ord_cross_trichotomy (a b : Rational)
    (ha : 0 < a.den ∧ Int.gcd a.num a.den = 1)
    (hb : 0 < b.den ∧ Int.gcd b.num b.den = 1) :
    ((inI64 (a.num * b.den) ∧ inI64 (b.num * a.den)) →
      ((Rational.pcmp a b = some .lt ↔ a.num * b.den < b.num * a.den) ∧
        ((Rational.pcmp a b = some .lt ∧ ¬ a = b ∧
            ¬ Rational.pcmp a b = some .gt) ∨
          (¬ Rational.pcmp a b = some .lt ∧ a = b ∧
            ¬ Rational.pcmp a b = some .gt) ∨
          (¬ Rational.pcmp a b = some .lt ∧ ¬ a = b ∧
            Rational.pcmp a b = some .gt)))) ∧
      (¬ (inI64 (a.num * b.den) ∧ inI64 (b.num * a.den)) →
        Rational.pcmp a b = none) := by
  constructor
  · intro hok
    have hp := Rational.pcmp_of_ok (a := a) (b := b) hok
    have hlt : Rational.pcmp a b = some .lt ↔
        a.num * b.den < b.num * a.den := by
      rw [hp]
      constructor
      · intro h
        exact cmp3_eq_lt.mp (Option.some_inj.mp h)
      · intro h
        rw [cmp3_eq_lt.mpr h]
    have hgt : Rational.pcmp a b = some .gt ↔
        b.num * a.den < a.num * b.den := by
      rw [hp]
      constructor
      · intro h
        exact cmp3_eq_gt.mp (Option.some_inj.mp h)
      · intro h
        rw [cmp3_eq_gt.mpr h]
    have heq : a.num * b.den = b.num * a.den ↔ a = b := by
      constructor
      · exact fun h => Rational.reduced_eq ha.1 hb.1 ha.2 hb.2 h
      · intro h; rw [h]
    refine ⟨hlt, ?_⟩
    rcases lt_trichotomy (a.num * b.den) (b.num * a.den) with h | h | h
    · exact .inl ⟨hlt.mpr h, fun hab => absurd (heq.mpr hab) (ne_of_lt h),
        fun hc => absurd (hgt.mp hc) (by omega)⟩
    · exact .inr (.inl ⟨fun hc => absurd (hlt.mp hc) (by omega), heq.mp h,
        fun hc => absurd (hgt.mp hc) (by omega)⟩)
    · exact .inr (.inr ⟨fun hc => absurd (hlt.mp hc) (by omega),
        fun hab => absurd (heq.mpr hab) (ne_of_gt h), hgt.mpr h⟩)
  · intro hbad
    rw [Rational.pcmp_eq_none]
    exact hbad

/-- Witness for C8 at the concrete reduced pair `1/2`, `2/3`. -/
theorem rat_ord_cross_trichotomy_witness :
    (0 < (⟨1, 2⟩ : Rational).den ∧
        Int.gcd (⟨1, 2⟩ : Rational).num (⟨1, 2⟩ : Rational).den = 1) ∧
      (0 < (⟨2, 3⟩ : Rational).den ∧
        Int.gcd (⟨2, 3⟩ : Rational).num (⟨2, 3⟩ : Rational).den = 1) ∧
      (((inI64 ((⟨1, 2⟩ : Rational).num * (⟨2, 3⟩ : Rational).den) ∧
          inI64 ((⟨2, 3⟩ : Rational).num * (⟨1, 2⟩ : Rational).den)) →
        ((Rational.pcmp ⟨1, 2⟩ ⟨2, 3⟩ = some .lt ↔
            (⟨1, 2⟩ : Rational).num * (⟨2, 3⟩ : Rational).den <
              (⟨2, 3⟩ : Rational).num * (⟨1, 2⟩ : Rational).den) ∧
          ((Rational.pcmp ⟨1, 2⟩ ⟨2, 3⟩ = some .lt ∧
              ¬ (⟨1, 2⟩ : Rational) = ⟨2, 3⟩ ∧
              ¬ Rational.pcmp ⟨1, 2⟩ ⟨2, 3⟩ = some .gt) ∨
            (¬ Rational.pcmp ⟨1, 2⟩ ⟨2, 3⟩ = some .lt ∧
              (⟨1, 2⟩ : Rational) = ⟨2, 3⟩ ∧
              ¬ Rational.pcmp ⟨1, 2⟩ ⟨2, 3⟩ = some .gt) ∨
            (¬ Rational.pcmp ⟨1, 2⟩ ⟨2, 3⟩ = some .lt ∧
              ¬ (⟨1, 2⟩ : Rational) = ⟨2, 3⟩ ∧
              Rational.pcmp ⟨1, 2⟩ ⟨2, 3⟩ = some .gt)))) ∧
        (¬ (inI64 ((⟨1, 2⟩ : Rational).num * (⟨2, 3⟩ : Rational).den) ∧
            inI64 ((⟨2, 3⟩ : Rational).num * (⟨1, 2⟩ : Rational).den)) →
          Rational.pcmp ⟨1, 2⟩ ⟨2, 3⟩ = none)) :=
  ⟨by decide, by decide,
    rat_ord_cross_trichotomy ⟨1, 2⟩ ⟨2, 3⟩ (by decide) (by decide)⟩

/-! ## Claim C9: `checked_sub` error behaviour -/

/-- C9 (amended): `checked_sub` fails with the numerator-overflow error
exactly when one of the two numerator cross multiplications overflows;
when both succeed but the unchecked subtraction of the cross products
overflows `i64`, it aborts (`none`) — a panic, not an `Overflow` error —
before the denominator multiplication is attempted; it fails with the
denominator-overflow error when that multiplication overflows; and
whenever it returns a result, the result is `new` applied to the exact
numerator difference over the denominator product. -/
theorem checked_sub_spec (a b : Rational) :
    Rational.checkedSub a b =
      if ¬ inI64 (a.num * b.den) then
        some (.error "Overflow computing numerator")
      else if ¬ inI64 (b.num * a.den) then
        some (.error "Overflow computing numerator")
      else if ¬ inI64 (a.num * b.den - b.num * a.den) then none
      else if ¬ inI64 (a.den * b.den) then
        some (.error "Overflow computing denominator")
      else Rational.new (a.num * b.den - b.num * a.den) (a.den * b.den) := by
  unfold Rational.checkedSub
  by_cases h1 : inI64 (a.num * b.den)
  · by_cases h2 : inI64 (b.num * a.den)
    · by_cases h3 : inI64 (a.num * b.den - b.num * a.den)
      · by_cases h4 : inI64 (a.den * b.den)
        · simp [checkedMul, h1, h2, h3, h4]
        · simp [checkedMul, h1, h2, h3, h4]
      · simp [checkedMul, h1, h2, h3]
    · simp [checkedMul, h1, h2]
  · simp [checkedMul, h1]

/-- Counterexample to C9 as stated: at `a = (2^63-1)/1`, `b = -(2^63-1)/1`
none of the three checked multiplications overflows, yet `checked_sub`
aborts (the unchecked subtraction `(2^63-1) - (-(2^63-1))` overflows)
instead of returning the exact difference. -/
theorem checked_sub_diff_overflow_counterexample :
    Rational.checkedSub ⟨i64Max, 1⟩ ⟨-i64Max, 1⟩ = none ∧
      inI64 ((⟨i64Max, 1⟩ : Rational).num * (⟨-i64Max, 1⟩ : Rational).den) ∧
      inI64 ((⟨-i64Max, 1⟩ : Rational).num * (⟨i64Max, 1⟩ : Rational).den) ∧
      inI64 ((⟨i64Max, 1⟩ : Rational).den * (⟨-i64Max, 1⟩ : Rational).den) := by
  refine ⟨?_, by decide, by decide, by decide⟩
  decide

/-! ## Claim C6: decimal parsing of `"-0.5"` -/

/-- C6: evaluating the code at the failing input.  The sign of the parsed
rational is taken from the parsed integer part (`int_val < 0`), and the
integer part of `"-0.5"` parses to `0`, so the minus sign is lost:
`from_decimal_str("-0.5")` returns `1/2`, not the `-1/2` the specification
states. -/
theorem from_decimal_str_neg_zero_point_five :
    Rational.fromDecimalStr "-0.5" = some (.ok ⟨1, 2⟩) := rfl

/-! ## Claim C10: `remove_order` touches the identifier index only -/

theorem lookupId_eq_none_of_not_mem {m : List (List Char × Order)}
    {id : List Char} (h : id ∉ m.map Prod.fst) : lookupId m id = none := by
  induction m with
  | nil => rfl
  | cons p rest ih =>
    simp only [List.map_cons, List.mem_cons] at h
    push_neg at h
    unfold lookupId
    rw [List.find?_cons]
    have : decide (p.1 = id) = false := by
      simp only [decide_eq_false_iff_not]
      exact fun hh => h.1 hh.symm
    rw [this]
    exact ih h.2

theorem lookupId_eraseP_self {m : List (List Char × Order)} {id : List Char}
    (h : (m.map Prod.fst).Nodup) :
    lookupId (m.eraseP (fun p => decide (p.1 = id))) id = none := by
  induction m with
  | nil => rfl
  | cons p rest ih =>
    simp only [List.map_cons, List.nodup_cons] at h
    by_cases hp : p.1 = id
    · rw [List.eraseP_cons_of_pos (by simpa using hp)]
      apply lookupId_eq_none_of_not_mem
      rw [← hp]
      exact h.1
    · rw [List.eraseP_cons_of_neg (by simpa using hp)]
      unfold lookupId
      rw [List.find?_cons]
      have : decide (p.1 = id) = false := by simpa using hp
      rw [this]
      exact ih h.2

/-- C10: `remove_order` leaves the range index `orders_by_vtl` entirely
unchanged; it returns `none` exactly on a lookup miss, in which case the
whole book is unchanged; on a hit it returns exactly the stored order and
removes it from the identifier index (after which the identifier no longer
resolves). -/
theorem remove_order_spec (book : OrderBook) (id : List Char)
    (hkeys : (book.orders_by_id.map Prod.fst).Nodup) :
    (book.remove_order id).2.orders_by_vtl = book.orders_by_vtl ∧
      ((book.remove_order id).1 = none ↔
        lookupId book.orders_by_id id = none) ∧
      ((book.remove_order id).1 = none → (book.remove_order id).2 = book) ∧
      (∀ o, (book.remove_order id).1 = some o →
        lookupId book.orders_by_id id = some o ∧
          (book.remove_order id).2.orders_by_id =
            book.orders_by_id.eraseP (fun p => decide (p.1 = id)) ∧
          lookupId (book.remove_order id).2.orders_by_id id = none) := by
  unfold OrderBook.remove_order
  cases h : lookupId book.orders_by_id id with
  | none =>
    refine ⟨rfl, by simp, fun _ => rfl, fun o ho => ?_⟩
    cases ho
  | some o' =>
    refine ⟨rfl, by simp [h], by simp, fun o ho => ?_⟩
    simp only [Option.some_inj] at ho
    subst ho
    exact ⟨rfl, rfl, lookupId_eraseP_self hkeys⟩

/-- A concrete lend order used by witnesses: id `A`, range `[0.05, 0.10]`. -/
def ordA : Order :=
  { order_id := ['A'], order_type := .LEND, status := .OPEN,
    asset := ['X'], collateral := 0, amount := 100, remaining_amount := 100,
    vtl_range := ⟨⟨1, 20⟩, ⟨1, 10⟩⟩ }

def bookA : OrderBook := ⟨[ordA], [(['A'], ordA)]⟩

/-- Witness for C10 at the one-order book `bookA` and its resident id. -/
theorem remove_order_spec_witness :
    (bookA.orders_by_id.map Prod.fst).Nodup ∧
      ((bookA.remove_order ['A']).2.orders_by_vtl = bookA.orders_by_vtl ∧
        ((bookA.remove_order ['A']).1 = none ↔
          lookupId bookA.orders_by_id ['A'] = none) ∧
        ((bookA.remove_order ['A']).1 = none →
          (bookA.remove_order ['A']).2 = bookA) ∧
        (∀ o, (bookA.remove_order ['A']).1 = some o →
          lookupId bookA.orders_by_id ['A'] = some o ∧
            (bookA.remove_order ['A']).2.orders_by_id =
              bookA.orders_by_id.eraseP (fun p => decide (p.1 = ['A'])) ∧
            lookupId (bookA.remove_order ['A']).2.orders_by_id ['A'] =
              none)) :=
  ⟨by decide, remove_order_spec bookA ['A'] (by decide)⟩

/-! ## Claim C7: `Rational::new` reduces correctly away from `i64::MIN` -/

theorem natAbs_tmod (a b : Int) : (a.tmod b).natAbs = a.natAbs % b.natAbs := by
  cases a <;> cases b <;>
      simp only [Int.tmod, Int.natAbs_neg, Int.natAbs_ofNat,
        Int.natAbs_negSucc] <;>
    rfl

theorem gcd_tmod_step (a b : Int) : Int.gcd b (a.tmod b) = Int.gcd a b := by
  have h := Int.tdiv_add_tmod a b
  have h1 : (Int.gcd b (a.tmod b) : Int) ∣ a := by
    have hl := Int.gcd_dvd_left (a := b) (b := a.tmod b)
    have hr := Int.gcd_dvd_right (a := b) (b := a.tmod b)
    calc (Int.gcd b (a.tmod b) : Int) ∣ b * a.tdiv b + a.tmod b :=
          dvd_add (Dvd.dvd.mul_right hl _) hr
    _ = a := h
  have h2 : (Int.gcd a b : Int) ∣ a.tmod b := by
    have hh : a.tmod b = a - b * a.tdiv b := by omega
    rw [hh]
    exact dvd_sub Int.gcd_dvd_left (Dvd.dvd.mul_right Int.gcd_dvd_right _)
  apply Nat.dvd_antisymm
  · rw [← Int.natCast_dvd_natCast]
    exact Int.dvd_gcd h1 Int.gcd_dvd_left
  · rw [← Int.natCast_dvd_natCast]
    exact Int.dvd_gcd Int.gcd_dvd_right h2

/-- With enough fuel, on arguments strictly inside the `i64` range the
Euclid loop computes the mathematical gcd (and never aborts). -/
theorem gcdLoop_eq : ∀ (fuel : Nat) (a b : Int), b.natAbs < fuel →
    i64Min < a → a ≤ i64Max → i64Min < b → b ≤ i64Max →
    gcdLoop fuel a b = some (Int.gcd a b : Int) := by
  intro fuel
  induction fuel with
  | zero => intro a b hf; omega
  | succ fuel ih =>
    intro a b hf ha1 ha2 hb1 hb2
    unfold gcdLoop
    by_cases hb : b = 0
    · subst hb
      rw [if_pos rfl, if_neg (by unfold i64Min at ha1 ⊢; omega)]
      rw [Int.gcd_zero_right]
    · rw [if_neg hb, if_neg (by
        intro hmin
        have : a = i64Min := hmin.1
        unfold i64Min at this ha1
        omega)]
      have habs : (a.tmod b).natAbs < b.natAbs := by
        rw [natAbs_tmod]
        exact Nat.mod_lt _ (by omega)
      have hbound : b.natAbs ≤ 2 ^ 63 - 1 := by
        unfold i64Min at hb1
        unfold i64Max at hb2
        omega
      rw [ih b (a.tmod b) (by omega)
        hb1 hb2
        (by unfold i64Min; omega)
        (by unfold i64Max i64Min at *; omega)]
      rw [gcd_tmod_step]

/-- The denominator-zero failure branch of `Rational::new`. -/
theorem rat_new_zero_den (n : Int) :
    Rational.new n 0 = some (.error "Denominator cannot be zero") := rfl

/-- Success characterization of `Rational::new` strictly inside the `i64`
range: the result is reduced, has a positive denominator, and represents
exactly `n / d`. -/
theorem rat_new_ok (n d : Int) (hn1 : i64Min < n) (hn2 : n ≤ i64Max)
    (hd1 : i64Min < d) (hd2 : d ≤ i64Max) (hd0 : d ≠ 0) :
    ∃ r, Rational.new n d = some (.ok r) ∧
      Int.gcd r.num r.den = 1 ∧ 0 < r.den ∧ r.num * d = n * r.den := by
  have hgpos : 0 < Int.gcd n d := Int.gcd_pos_iff.mpr (Or.inr hd0)
  set g : Int := (Int.gcd n d : Int) with hg
  have hgpos' : 0 < g := by rw [hg]; exact_mod_cast hgpos
  have hgn : g ∣ n := Int.gcd_dvd_left
  have hgd : g ∣ d := Int.gcd_dvd_right
  have hq : n.tdiv g * g = n := Int.tdiv_mul_cancel hgn
  have hgabs : g ∣ (d.natAbs : Int) := (Int.dvd_natAbs).mpr hgd
  have hq2 : ((d.natAbs : Int)).tdiv g * g = (d.natAbs : Int) :=
    Int.tdiv_mul_cancel hgabs
  set q : Int := n.tdiv g with hqdef
  set q2 : Int := ((d.natAbs : Int)).tdiv g with hq2def
  have hqn : q ∣ n := ⟨g, hq.symm.trans (mul_comm q g ▸ rfl)⟩
  have habsq : q.natAbs ≤ n.natAbs ∨ n = 0 := by
    by_cases hn0 : n = 0
    · exact Or.inr hn0
    · left
      exact Nat.le_of_dvd (by omega) (Int.natAbs_dvd_natAbs.mpr hqn)
  have hq0 : n = 0 → q = 0 := by
    intro hn0
    have : q * g = 0 := by rw [hq, hn0]
    rcases mul_eq_zero.mp this with h | h
    · exact h
    · exact absurd h (by omega)
  set sign : Int := if d < 0 then -1 else 1 with hsign
  have hsd : sign * d = (d.natAbs : Int) := by
    rw [hsign]
    by_cases h : d < 0
    · rw [if_pos h]; omega
    · rw [if_neg h]; omega
  have hsq : inI64 (sign * q) := by
    have h1 : (sign * q).natAbs = q.natAbs := by
      rw [hsign]
      by_cases h : d < 0
      · rw [if_pos h]; simp [Int.natAbs_neg]
      · rw [if_neg h]; simp
    have h2 : q.natAbs ≤ 2 ^ 63 - 1 := by
      rcases habsq with h | h
      · unfold i64Min at hn1
        unfold i64Max at hn2
        omega
      · rw [hq0 h]; simp
    unfold inI64 i64Min i64Max
    omega
  have hq2pos : 0 < q2 := by
    by_contra hle
    push_neg at hle
    have h1 : q2 * g ≤ 0 := mul_nonpos_of_nonpos_of_nonneg hle hgpos'.le
    rw [hq2] at h1
    omega
  refine ⟨⟨sign * q, q2⟩, ?_, ?_, hq2pos, ?_⟩
  · unfold Rational.new
    rw [if_neg hd0]
    rw [gcdLoop_eq (d.natAbs + 1) n d (by omega) hn1 hn2 hd1 hd2]
    simp only [Option.some_bind]
    rw [← hg, ← hsign, ← hqdef, ← hq2def]
    rw [if_pos hsq, if_neg (by unfold i64Min at hd1 ⊢; omega)]
  · have h1 : Int.gcd (sign * q) q2 = Int.gcd q q2 := by
      rw [hsign]
      by_cases h : d < 0
      · rw [if_pos h]
        simp [Int.neg_gcd]
      · rw [if_neg h]
        simp
    have h2 : Int.gcd (g * q) (g * q2) = g.natAbs * Int.gcd q q2 :=
      Int.gcd_mul_left g q q2
    have h3 : g * q = n := by rw [mul_comm]; exact hq
    have h4 : g * q2 = (d.natAbs : Int) := by rw [mul_comm]; exact hq2
    rw [h3, h4] at h2
    have h5 : Int.gcd n ((d.natAbs : Int)) = Int.gcd n d := by
      simp [Int.gcd, Int.natAbs_abs]
    rw [h5] at h2
    have h6 : g.natAbs = Int.gcd n d := by
      rw [hg]; simp
    rw [h6] at h2
    have h7 : 1 = Int.gcd q q2 :=
      Nat.eq_of_mul_eq_mul_left hgpos (by rw [mul_one]; exact h2)
    rw [h1]
    exact h7.symm
  · have : sign * q * d = q * (sign * d) := by ring
    rw [this, hsd, ← hq2, ← hq]
    ring

/-- C7 (amended): for every pair of 64-bit signed integers strictly above
`i64::MIN`, `Rational::new(n, d)` fails exactly when `d = 0` (with the
invalid-denominator error), and otherwise returns a fraction with
`gcd(|num|, den) = 1`, `den > 0` and value exactly `n/d`; and
`new(n, d) = new(k*n, k*d)` for every `k ≠ 0` whose products stay strictly
above `i64::MIN` and within `i64`. -/
theorem rat_new_spec (n d : Int)
    (hn : i64Min < n ∧ n ≤ i64Max) (hd : i64Min < d ∧ d ≤ i64Max) :
    (d = 0 → Rational.new n d = some (.error "Denominator cannot be zero")) ∧
      (d ≠ 0 → ∃ r, Rational.new n d = some (.ok r) ∧
        Int.gcd r.num r.den = 1 ∧ 0 < r.den ∧ r.num * d = n * r.den) ∧
      (∀ k, k ≠ 0 → i64Min < k * n → k * n ≤ i64Max → i64Min < k * d →
        k * d ≤ i64Max → Rational.new (k * n) (k * d) = Rational.new n d) := by
  refine ⟨?_, ?_, ?_⟩
  · intro h; subst h; exact rat_new_zero_den n
  · intro hd0
    exact rat_new_ok n d hn.1 hn.2 hd.1 hd.2 hd0
  · intro k hk hkn1 hkn2 hkd1 hkd2
    by_cases hd0 : d = 0
    · subst hd0
      rw [mul_zero, rat_new_zero_den, rat_new_zero_den]
    · have hkd0 : k * d ≠ 0 := mul_ne_zero hk hd0
      obtain ⟨r, hr, hrg, hrd, hrv⟩ := rat_new_ok n d hn.1 hn.2 hd.1 hd.2 hd0
      obtain ⟨r', hr', hrg', hrd', hrv'⟩ :=
        rat_new_ok (k * n) (k * d) hkn1 hkn2 hkd1 hkd2 hkd0
      have hv2 : r'.num * d = n * r'.den := by
        apply mul_left_cancel₀ hk
        calc k * (r'.num * d) = r'.num * (k * d) := by ring
        _ = (k * n) * r'.den := hrv'
        _ = k * (n * r'.den) := by ring
      have hcross : r.num * r'.den = r'.num * r.den := by
        apply mul_right_cancel₀ (b := d) hd0
        calc r.num * r'.den * d = (r.num * d) * r'.den := by ring
        _ = (n * r.den) * r'.den := by rw [hrv]
        _ = (n * r'.den) * r.den := by ring
        _ = (r'.num * d) * r.den := by rw [hv2]
        _ = r'.num * r.den * d := by ring
      have heq : r = r' := Rational.reduced_eq hrd hrd' hrg hrg' hcross
      rw [hr, hr', heq]

/-- Counterexample to C7 as stated: at `(n, d) = (1, i64::MIN)` the
denominator is nonzero, yet `new` aborts (the unchecked `den.abs()`
overflows at `i64::MIN`) instead of returning a reduced fraction. -/
theorem rat_new_min_den_counterexample :
    Rational.new 1 i64Min = none ∧ i64Min ≠ 0 := by
  exact ⟨rfl, by decide⟩

/-- Witness for C7 at `(n, d) = (6, 4)` (and the scaling instance is
applicable, e.g. at `k = 3`). -/
theorem rat_new_spec_witness :
    (i64Min < 6 ∧ (6 : Int) ≤ i64Max) ∧ (i64Min < 4 ∧ (4 : Int) ≤ i64Max) ∧
      (((4 : Int) = 0 →
          Rational.new 6 4 = some (.error "Denominator cannot be zero")) ∧
        ((4 : Int) ≠ 0 → ∃ r, Rational.new 6 4 = some (.ok r) ∧
          Int.gcd r.num r.den = 1 ∧ 0 < r.den ∧ r.num * 4 = 6 * r.den) ∧
        (∀ k, k ≠ 0 → i64Min < k * 6 → k * 6 ≤ i64Max → i64Min < k * 4 →
          k * 4 ≤ i64Max → Rational.new (k * 6) (k * 4) = Rational.new 6 4)) :=
  ⟨by decide, by decide, rat_new_spec 6 4 (by decide) (by decide)⟩

/-! ## Boolean comparison bridges -/

theorem Rational.leb_eq_of_ok {a b : Rational} (h : cmpOK a b) :
    Rational.leb a b = decide (a.num * b.den ≤ b.num * a.den) := by
  unfold Rational.leb
  rw [Rational.pcmp_of_ok h]
  rcases lt_trichotomy (a.num * b.den) (b.num * a.den) with h1 | h1 | h1
  · rw [cmp3_eq_lt.mpr h1]
    simp [h1.le]
  · rw [cmp3_eq_eq.mpr h1]
    rw [decide_eq_true (le_of_eq h1)]
  · rw [cmp3_eq_gt.mpr h1]
    simp [not_le.mpr h1]

theorem Rational.gtb_eq_of_ok {a b : Rational} (h : cmpOK a b) :
    Rational.gtb a b = decide (b.num * a.den < a.num * b.den) := by
  unfold Rational.gtb
  rw [Rational.pcmp_of_ok h]
  rcases lt_trichotomy (a.num * b.den) (b.num * a.den) with h1 | h1 | h1
  · rw [cmp3_eq_lt.mpr h1]
    simp [not_lt.mpr h1.le]
  · rw [cmp3_eq_eq.mpr h1]
    rw [decide_eq_false (not_lt.mpr (le_of_eq h1))]
  · rw [cmp3_eq_gt.mpr h1]
    simp [h1]

theorem Rational.leb_eq_rQ {a b : Rational} (h : cmpOK a b) (ha : 0 < a.den)
    (hb : 0 < b.den) : Rational.leb a b = decide (rQ a ≤ rQ b) := by
  rw [Rational.leb_eq_of_ok h]
  simp only [decide_eq_decide]
  exact crossLe_iff_rQ ha hb

theorem Rational.gtb_eq_rQ {a b : Rational} (h : cmpOK a b) (ha : 0 < a.den)
    (hb : 0 < b.den) : Rational.gtb a b = decide (rQ b < rQ a) := by
  rw [Rational.gtb_eq_of_ok h]
  simp only [decide_eq_decide]
  exact crossLt_iff_rQ hb ha

theorem rleB_eq_rQ {a b : Rational} (ha : 0 < a.den) (hb : 0 < b.den) :
    rleB a b = decide (rQ a ≤ rQ b) := by
  unfold rleB
  simp only [decide_eq_decide]
  exact crossLe_iff_rQ ha hb

theorem rltB_eq_rQ {a b : Rational} (ha : 0 < a.den) (hb : 0 < b.den) :
    rltB a b = decide (rQ a < rQ b) := by
  unfold rltB
  simp only [decide_eq_decide]
  exact crossLt_iff_rQ ha hb

/-- Value of `Ord::max` of two comparable rationals: defined, value-level maximum,
and one of the two arguments. -/
theorem Rational.omax_val {a b : Rational} (h : cmpOK a b) (ha : 0 < a.den)
    (hb : 0 < b.den) :
    ∃ c, Rational.omax a b = some c ∧ rQ c = max (rQ a) (rQ b) ∧
      (c = a ∨ c = b) := by
  unfold Rational.omax
  rw [Rational.pcmp_of_ok h, cmp3_cross_eq_cmp3_rQ ha hb]
  refine ⟨if cmp3 (rQ a) (rQ b) = .gt then a else b, rfl, ?_, ?_⟩
  · by_cases hc : cmp3 (rQ a) (rQ b) = .gt
    · rw [if_pos hc]
      exact (max_eq_left (cmp3_eq_gt.mp hc).le).symm
    · rw [if_neg hc]
      have : ¬ rQ b < rQ a := fun hlt => hc (cmp3_eq_gt.mpr hlt)
      exact (max_eq_right (not_lt.mp this)).symm
  · by_cases hc : cmp3 (rQ a) (rQ b) = .gt
    · rw [if_pos hc]; exact Or.inl rfl
    · rw [if_neg hc]; exact Or.inr rfl

/-- Value of `Ord::min` of two comparable rationals. -/
theorem Rational.omin_val {a b : Rational} (h : cmpOK a b) (ha : 0 < a.den)
    (hb : 0 < b.den) :
    ∃ c, Rational.omin a b = some c ∧ rQ c = min (rQ a) (rQ b) ∧
      (c = a ∨ c = b) := by
  unfold Rational.omin
  rw [Rational.pcmp_of_ok h, cmp3_cross_eq_cmp3_rQ ha hb]
  refine ⟨if cmp3 (rQ a) (rQ b) = .gt then b else a, rfl, ?_, ?_⟩
  · by_cases hc : cmp3 (rQ a) (rQ b) = .gt
    · rw [if_pos hc]
      exact (min_eq_right (cmp3_eq_gt.mp hc).le).symm
    · rw [if_neg hc]
      have : ¬ rQ b < rQ a := fun hlt => hc (cmp3_eq_gt.mpr hlt)
      exact (min_eq_left (not_lt.mp this)).symm
  · by_cases hc : cmp3 (rQ a) (rQ b) = .gt
    · rw [if_pos hc]; exact Or.inr rfl
    · rw [if_neg hc]; exact Or.inl rfl

/-- The spec-side maximum: value-level maximum, one of the arguments. -/
theorem specMaxR_val {a b : Rational} (ha : 0 < a.den) (hb : 0 < b.den) :
    rQ (specMaxR a b) = max (rQ a) (rQ b) ∧
      (specMaxR a b = a ∨ specMaxR a b = b) := by
  unfold specMaxR
  rw [rltB_eq_rQ ha hb]
  by_cases hc : rQ a < rQ b
  · rw [if_pos (decide_eq_true hc)]
    exact ⟨(max_eq_right hc.le).symm, Or.inr rfl⟩
  · rw [if_neg (by simp [hc])]
    exact ⟨(max_eq_left (not_lt.mp hc)).symm, Or.inl rfl⟩

/-- The spec-side minimum: value-level minimum, one of the arguments. -/
theorem specMinR_val {a b : Rational} (ha : 0 < a.den) (hb : 0 < b.den) :
    rQ (specMinR a b) = min (rQ a) (rQ b) ∧
      (specMinR a b = a ∨ specMinR a b = b) := by
  unfold specMinR
  rw [rltB_eq_rQ hb ha]
  by_cases hc : rQ b < rQ a
  · rw [if_pos (decide_eq_true hc)]
    exact ⟨(min_eq_right hc.le).symm, Or.inr rfl⟩
  · rw [if_neg (by simp [hc])]
    exact ⟨(min_eq_left (not_lt.mp hc)).symm, Or.inl rfl⟩

/-- The spec-side overlap test, at the level of rational values. -/
theorem specOverlapB_eq_rQ {a b : IntervalR} (h1 : 0 < a.min.den)
    (h2 : 0 < a.max.den) (h3 : 0 < b.min.den) (h4 : 0 < b.max.den) :
    specOverlapB a b =
      decide (max (rQ a.min) (rQ b.min) ≤ min (rQ a.max) (rQ b.max)) := by
  unfold specOverlapB
  obtain ⟨hmaxv, hmaxc⟩ := specMaxR_val h1 h3
  obtain ⟨hminv, hminc⟩ := specMinR_val h2 h4
  have hdl : 0 < (specMaxR a.min b.min).den := by
    rcases hmaxc with h | h <;> rw [h] <;> assumption
  have hdu : 0 < (specMinR a.max b.max).den := by
    rcases hminc with h | h <;> rw [h] <;> assumption
  rw [rleB_eq_rQ hdl hdu, hmaxv, hminv]

/-! ## Binary-search partition lemma -/

/-- The shared search loop, run with the `Less`/`Greater` comparator of the
matching functions, lands exactly on the partition point `k` of the
predicate (entries before `k` compare `Less`, from `k` on `Greater`). -/
theorem bsGo_partition {α : Type} (q : α → Bool) (xs : List α) (k : Nat)
    (hk1 : ∀ i (h : i < xs.length), i < k → q xs[i] = true)
    (hk2 : ∀ i (h : i < xs.length), k ≤ i → q xs[i] = false) :
    ∀ fuel lo hi, hi - lo ≤ fuel → lo ≤ k → k ≤ hi → hi ≤ xs.length →
      bsGo (fun x => some (if q x then .lt else .gt)) xs fuel lo hi =
        some (.inr k) := by
  intro fuel
  induction fuel with
  | zero =>
    intro lo hi hf hlo hhi hlen
    unfold bsGo
    rw [if_neg (by omega)]
    have : lo = k := by omega
    rw [this]
  | succ fuel ih =>
    intro lo hi hf hlo hhi hlen
    by_cases hlh : lo < hi
    · have hmid : lo + (hi - lo) / 2 < hi := by omega
      have hmidlen : lo + (hi - lo) / 2 < xs.length := lt_of_lt_of_le hmid hlen
      unfold bsGo
      rw [if_pos hlh, List.getElem?_eq_getElem hmidlen]
      dsimp only
      by_cases hq : q (xs[lo + (hi - lo) / 2]) = true
      · rw [hq]
        have hmk : lo + (hi - lo) / 2 < k := by
          by_contra hc
          push_neg at hc
          rw [hk2 _ hmidlen hc] at hq
          cases hq
        exact ih (lo + (hi - lo) / 2 + 1) hi (by omega) (by omega) hhi hlen
      · rw [Bool.not_eq_true] at hq
        rw [hq]
        have hkm : k ≤ lo + (hi - lo) / 2 := by
          by_contra hc
          push_neg at hc
          rw [hk1 _ hmidlen hc] at hq
          cases hq
        exact ih lo (lo + (hi - lo) / 2) (by omega) hlo hkm
          (le_trans hmid.le hlen)
    · unfold bsGo
      rw [if_neg hlh]
      have : lo = k := by omega
      rw [this]

/-! ## The forward overlap scan of `match_lend` -/

/-- Comparability and representation hypotheses for one scanned order
against the probe order's range endpoints. -/
def scanOK (o : Order) (lendMin lendMax : Rational) : Prop :=
  (0 < o.vtl_range.min.den ∧ 0 < o.vtl_range.max.den) ∧
    cmpOK o.vtl_range.min lendMin ∧ cmpOK o.vtl_range.max lendMax ∧
    cmpOK o.vtl_range.min o.vtl_range.max ∧
    cmpOK o.vtl_range.min lendMax ∧ cmpOK lendMin o.vtl_range.max

instance (a b : Rational) : Decidable (cmpOK a b) := by
  unfold cmpOK; infer_instance

instance (o : Order) (lendMin lendMax : Rational) :
    Decidable (scanOK o lendMin lendMax) := by
  unfold scanOK; infer_instance

theorem specOverlapB_pair (i : IntervalR) (lendMin lendMax : Rational)
    (h1 : 0 < i.min.den) (h2 : 0 < i.max.den) (h3 : 0 < lendMin.den)
    (h4 : 0 < lendMax.den) :
    specOverlapB i ⟨lendMin, lendMax⟩ =
      decide (max (rQ i.min) (rQ lendMin) ≤ min (rQ i.max) (rQ lendMax)) :=
  specOverlapB_eq_rQ h1 h2 h3 h4

/-- One scan step: the code's `lower = o.min.max(lend_min)`, `upper =
o.max.min(lend_max)` computations are defined, and the code's `lower <=
upper` / `lower > upper` tests coincide with the spec's overlap test. -/
theorem overlap_step (o : Order) (lendMin lendMax : Rational)
    (hl : 0 < lendMin.den) (hlx : 0 < lendMax.den)
    (hll : cmpOK lendMin lendMax) (ho : scanOK o lendMin lendMax) :
    ∃ lower upper, Rational.omax o.vtl_range.min lendMin = some lower ∧
      Rational.omin o.vtl_range.max lendMax = some upper ∧
      Rational.leb lower upper = specOverlapB o.vtl_range ⟨lendMin, lendMax⟩ ∧
      Rational.gtb lower upper =
        ! specOverlapB o.vtl_range ⟨lendMin, lendMax⟩ := by
  obtain ⟨⟨hdmin, hdmax⟩, hc1, hc2, hc3, hc4, hc5⟩ := ho
  obtain ⟨lower, hlow, hlowv, hlowc⟩ := Rational.omax_val hc1 hdmin hl
  obtain ⟨upper, hup, hupv, hupc⟩ := Rational.omin_val hc2 hdmax hlx
  have hld : 0 < lower.den := by
    rcases hlowc with h | h <;> rw [h] <;> assumption
  have hud : 0 < upper.den := by
    rcases hupc with h | h <;> rw [h] <;> assumption
  have hcmplu : cmpOK lower upper := by
    rcases hlowc with h | h <;> rcases hupc with h' | h' <;> rw [h, h'] <;>
      assumption
  have hspec := specOverlapB_pair o.vtl_range lendMin lendMax hdmin hdmax hl hlx
  refine ⟨lower, upper, hlow, hup, ?_, ?_⟩
  · rw [Rational.leb_eq_rQ hcmplu hld hud, hspec, hlowv, hupv]
  · rw [Rational.gtb_eq_rQ hcmplu hld hud, hspec, hlowv, hupv]
    rw [← decide_not]
    simp only [decide_eq_decide]
    exact not_le.symm

/-- The forward scan returns exactly the first `OPEN` overlapping entry of
the scanned suffix (the spec's `find?`). -/
theorem scanLend_spec (lendMin lendMax : Rational) (hl : 0 < lendMin.den)
    (hlx : 0 < lendMax.den) (hll : cmpOK lendMin lendMax) (l : List Order)
    (h : ∀ o ∈ l, scanOK o lendMin lendMax) :
    scanLend lendMin lendMax l =
      some (l.find? (fun o => decide (o.status = OrderStatus.OPEN) &&
        specOverlapB o.vtl_range ⟨lendMin, lendMax⟩)) := by
  induction l with
  | nil => rfl
  | cons o rest ih =>
    have ho := h o (List.mem_cons_self o rest)
    have hrest := fun x hx => h x (List.mem_cons_of_mem _ hx)
    unfold scanLend
    rw [List.find?_cons]
    by_cases hst : o.status = OrderStatus.OPEN
    · rw [if_neg (by simp [hst])]
      obtain ⟨lower, upper, hlow, hup, hleb, _⟩ :=
        overlap_step o lendMin lendMax hl hlx hll ho
      rw [hlow, hup]
      dsimp only
      by_cases hov : specOverlapB o.vtl_range ⟨lendMin, lendMax⟩ = true
      · rw [hleb, hov]
        simp [hst]
      · rw [Bool.not_eq_true] at hov
        rw [hleb, hov]
        simpa using ih hrest
    · rw [if_pos (by simp [hst])]
      have hfalse : decide (o.status = OrderStatus.OPEN) = false := by
        simp [hst]
      rw [hfalse]
      simpa using ih hrest

/-! ## Claim C1: `match_lend` refines its specification -/

theorem keyLE_min_le {o1 o2 : Order} (h : keyLE o1 o2)
    (h1 : 0 < o1.vtl_range.min.den) (h2 : 0 < o2.vtl_range.min.den) :
    rQ o1.vtl_range.min ≤ rQ o2.vtl_range.min := by
  rcases h with h | ⟨h, _⟩
  · unfold rltB at h
    exact ((crossLt_iff_rQ h1 h2).mp (of_decide_eq_true h)).le
  · unfold reqP at h
    exact le_of_eq ((crossEq_iff_rQ h1 h2).mp h)

/-- On a sorted book, the spec's partition point `specFirstGT` satisfies
the two partition properties the binary search needs: entries before it
compare `min <= m` (`true`), entries from it on compare `min > m`
(`false`). -/
theorem partition_hyps (book : OrderBook) (m : Rational)
    (hdb : ∀ o ∈ book.orders_by_vtl,
      0 < o.vtl_range.min.den ∧ 0 < o.vtl_range.max.den)
    (hm : 0 < m.den)
    (hsort : book.orders_by_vtl.Pairwise keyLE)
    (hcmp : ∀ o ∈ book.orders_by_vtl, cmpOK o.vtl_range.min m) :
    (∀ i (h : i < book.orders_by_vtl.length),
      i < specFirstGT book.orders_by_vtl m →
      (book.orders_by_vtl[i].vtl_range.min.leb m) = true) ∧
    (∀ i (h : i < book.orders_by_vtl.length),
      specFirstGT book.orders_by_vtl m ≤ i →
      (book.orders_by_vtl[i].vtl_range.min.leb m) = false) := by
  constructor
  · intro i h hik
    have hik2 : i < List.findIdx
        (fun o : Order => rltB m o.vtl_range.min)
        book.orders_by_vtl := hik
    have hfalse := List.not_of_lt_findIdx hik2
    have hmem : book.orders_by_vtl[i] ∈ book.orders_by_vtl :=
      List.getElem_mem h
    obtain ⟨hdmin, _⟩ := hdb _ hmem
    have hco := hcmp _ hmem
    rw [rltB_eq_rQ hm hdmin] at hfalse
    rw [Rational.leb_eq_rQ hco hdmin hm]
    exact decide_eq_true (not_lt.mp (of_decide_eq_false hfalse))
  · intro i h hki
    have hklen2 : specFirstGT book.orders_by_vtl m <
        book.orders_by_vtl.length := lt_of_le_of_lt hki h
    have hklen3 : List.findIdx
        (fun o : Order => rltB m o.vtl_range.min)
        book.orders_by_vtl < book.orders_by_vtl.length := hklen2
    have htrue : rltB m
        (book.orders_by_vtl[specFirstGT book.orders_by_vtl
          m]).vtl_range.min = true :=
      @List.findIdx_getElem _ _ _ hklen3
    have hmemk : book.orders_by_vtl[specFirstGT book.orders_by_vtl
        m] ∈ book.orders_by_vtl :=
      List.getElem_mem hklen2
    have hmemi : book.orders_by_vtl[i] ∈ book.orders_by_vtl :=
      List.getElem_mem h
    obtain ⟨hdmk, _⟩ := hdb _ hmemk
    obtain ⟨hdmi, _⟩ := hdb _ hmemi
    rw [rltB_eq_rQ hm hdmk] at htrue
    have hmk : rQ m <
        rQ (book.orders_by_vtl[specFirstGT book.orders_by_vtl
          m]).vtl_range.min :=
      of_decide_eq_true htrue
    have hmono : rQ (book.orders_by_vtl[specFirstGT book.orders_by_vtl
          m]).vtl_range.min ≤
        rQ (book.orders_by_vtl[i]).vtl_range.min := by
      rcases Nat.eq_or_lt_of_le hki with heq | hlt
      · subst heq
        exact le_refl _
      · exact keyLE_min_le
          (List.pairwise_iff_getElem.mp hsort _ _ hklen2 h hlt) hdmk hdmi
    have hco := hcmp _ hmemi
    rw [Rational.leb_eq_rQ hco hdmi hm]
    exact decide_eq_false (not_le.mpr (lt_of_lt_of_le hmk hmono))

/-- C1: on a sorted borrow book (all range denominators positive, all the
comparisons the algorithm performs representable), `match_lend` computes
the partition point `idx` = first position with `min > lend_min`, scans the
suffix from `idx`, and returns the first `OPEN` overlapping entry —
exactly `specMatchLend`, the claim's wording; on an empty book it returns
no match. -/
theorem match_lend_refines_spec (book : OrderBook) (lend : Order)
    (hdb : ∀ o ∈ book.orders_by_vtl,
      0 < o.vtl_range.min.den ∧ 0 < o.vtl_range.max.den)
    (hdl : 0 < lend.vtl_range.min.den ∧ 0 < lend.vtl_range.max.den)
    (hsort : book.orders_by_vtl.Pairwise keyLE)
    (hcmp : ∀ o ∈ book.orders_by_vtl,
      scanOK o lend.vtl_range.min lend.vtl_range.max)
    (hll : cmpOK lend.vtl_range.min lend.vtl_range.max) :
    matchLend book lend = some (specMatchLend book lend) ∧
      (book.orders_by_vtl = [] → matchLend book lend = some none) := by
  have hklen : specFirstGT book.orders_by_vtl lend.vtl_range.min ≤
      book.orders_by_vtl.length := List.findIdx_le_length _
  have hmain : matchLend book lend = some (specMatchLend book lend) := by
    obtain ⟨hk1, hk2⟩ := partition_hyps book lend.vtl_range.min hdb hdl.1
      hsort (fun o ho => (hcmp o ho).2.1)
    unfold matchLend
    rw [bsGo_partition
      (fun o => o.vtl_range.min.leb lend.vtl_range.min)
      book.orders_by_vtl
      (specFirstGT book.orders_by_vtl lend.vtl_range.min) hk1 hk2
      book.orders_by_vtl.length 0 book.orders_by_vtl.length
      (by omega) (Nat.zero_le _) hklen le_rfl]
    rw [Option.some_bind]
    rw [scanLend_spec lend.vtl_range.min lend.vtl_range.max hdl.1 hdl.2 hll
      (book.orders_by_vtl.drop
        (Sum.elim id id
          (Sum.inr (specFirstGT book.orders_by_vtl lend.vtl_range.min))))
      (fun o hx => hcmp o (List.mem_of_mem_drop hx))]
    rfl
  refine ⟨hmain, fun hempty => ?_⟩
  rw [hmain]
  simp [specMatchLend, specFirstGT, hempty]

/-! ## Claim C3: `match_borrow` refines its specification -/

/-- C3: on a sorted lend book (denominators positive, comparisons
representable), `match_borrow` computes the partition point `idx` = first
position with `min > borrow_min`; at `idx = 0` it returns no match;
otherwise it examines only the entry at `idx - 1` and returns it exactly
when that entry is `OPEN` and overlapping — exactly `specMatchBorrow`,
the claim's wording. -/
theorem match_borrow_refines_spec (book : OrderBook) (borrow : Order)
    (hdb : ∀ o ∈ book.orders_by_vtl,
      0 < o.vtl_range.min.den ∧ 0 < o.vtl_range.max.den)
    (hdl : 0 < borrow.vtl_range.min.den ∧ 0 < borrow.vtl_range.max.den)
    (hsort : book.orders_by_vtl.Pairwise keyLE)
    (hcmp : ∀ o ∈ book.orders_by_vtl,
      scanOK o borrow.vtl_range.min borrow.vtl_range.max)
    (hll : cmpOK borrow.vtl_range.min borrow.vtl_range.max) :
    matchBorrow book borrow = some (specMatchBorrow book borrow) := by
  have hklen : specFirstGT book.orders_by_vtl borrow.vtl_range.min ≤
      book.orders_by_vtl.length := List.findIdx_le_length _
  obtain ⟨hk1, hk2⟩ := partition_hyps book borrow.vtl_range.min hdb hdl.1
    hsort (fun o ho => (hcmp o ho).2.1)
  unfold matchBorrow binSearchBy
  rw [bsGo_partition
    (fun o => o.vtl_range.min.leb borrow.vtl_range.min)
    book.orders_by_vtl
    (specFirstGT book.orders_by_vtl borrow.vtl_range.min) hk1 hk2
    book.orders_by_vtl.length 0 book.orders_by_vtl.length
    (by omega) (Nat.zero_le _) hklen le_rfl]
  rw [Option.some_bind]
  unfold specMatchBorrow
  dsimp only [Sum.elim_inr, id_eq]
  by_cases hk0 : specFirstGT book.orders_by_vtl borrow.vtl_range.min = 0
  · rw [if_pos hk0, if_pos hk0]
  · rw [if_neg hk0, if_neg hk0]
    have hk1len : specFirstGT book.orders_by_vtl borrow.vtl_range.min - 1 <
        book.orders_by_vtl.length := by omega
    rw [List.getElem?_eq_getElem hk1len]
    dsimp only
    have hmem : book.orders_by_vtl[specFirstGT book.orders_by_vtl
        borrow.vtl_range.min - 1] ∈ book.orders_by_vtl :=
      List.getElem_mem hk1len
    by_cases hst : (book.orders_by_vtl[specFirstGT book.orders_by_vtl
        borrow.vtl_range.min - 1]).status = OrderStatus.OPEN
    · rw [if_neg (by simp [hst])]
      obtain ⟨lower, upper, hlow, hup, _, hgtb⟩ :=
        overlap_step _ borrow.vtl_range.min borrow.vtl_range.max hdl.1 hdl.2
          hll (hcmp _ hmem)
      rw [hlow, hup]
      dsimp only
      by_cases hov : specOverlapB (book.orders_by_vtl[specFirstGT
          book.orders_by_vtl borrow.vtl_range.min - 1]).vtl_range
          ⟨borrow.vtl_range.min, borrow.vtl_range.max⟩ = true
      · rw [hgtb, hov]
        simp [hst]
      · rw [Bool.not_eq_true] at hov
        rw [hgtb, hov]
        simp
    · rw [if_pos (by simp [hst])]
      rw [if_neg (fun hc => hst hc.1)]

/-! ## Concrete scenario data (spec §8) -/

/-- Scenario 2's borrow order `B1 [0.01, 0.03]`, `EXPIRED`. -/
def ordB1 : Order :=
  { order_id := ['B', '1'], order_type := .BORROW, status := .EXPIRED,
    asset := ['X'], collateral := 0, amount := 100, remaining_amount := 100,
    vtl_range := ⟨⟨1, 100⟩, ⟨3, 100⟩⟩ }

/-- Scenario 2's borrow order `B2 [0.02, 0.09]`, `OPEN`. -/
def ordB2 : Order :=
  { order_id := ['B', '2'], order_type := .BORROW, status := .OPEN,
    asset := ['X'], collateral := 0, amount := 100, remaining_amount := 100,
    vtl_range := ⟨⟨1, 50⟩, ⟨9, 100⟩⟩ }

/-- Scenario 2's incoming lend order with range `[0.02, 0.05]`. -/
def lendL : Order :=
  { order_id := ['L'], order_type := .LEND, status := .OPEN,
    asset := ['X'], collateral := 0, amount := 100, remaining_amount := 100,
    vtl_range := ⟨⟨1, 50⟩, ⟨1, 20⟩⟩ }

/-- The borrow book holding `B1` and `B2`, as `add_order` builds it. -/
def bookB12 : OrderBook :=
  ⟨[ordB1, ordB2], [(['B', '1'], ordB1), (['B', '2'], ordB2)]⟩

/-- Scenario 1's lend order `L1 [0.05, 0.10]`, amount 100, `OPEN`. -/
def ordL1 : Order :=
  { order_id := ['L', '1'], order_type := .LEND, status := .OPEN,
    asset := ['X'], collateral := 0, amount := 100, remaining_amount := 100,
    vtl_range := ⟨⟨1, 20⟩, ⟨1, 10⟩⟩ }

/-- The lend book holding only `L1`. -/
def bookL1 : OrderBook := ⟨[ordL1], [(['L', '1'], ordL1)]⟩

/-- Scenario 1's incoming borrow order with range `[0.06, 0.08]`. -/
def borrowO : Order :=
  { order_id := ['b'], order_type := .BORROW, status := .OPEN,
    asset := ['X'], collateral := 0, amount := 100, remaining_amount := 100,
    vtl_range := ⟨⟨3, 50⟩, ⟨2, 25⟩⟩ }

/-! ## Claim C2: scenario 2 evaluated on the code -/

/-- C2: evaluating the code on scenario 2.  Inserting `B1` (EXPIRED,
`[0.01, 0.03]`) then `B2` (OPEN, `[0.02, 0.09]`) builds the book
`[B1, B2]`; `match_lend` with range `[0.02, 0.05]` then returns **no
match**, not `B2`: the binary search places `idx` after every entry with
`min <= 0.02` — which includes `B2` itself — and the forward scan starts
past it, so the overlapping open order is never examined. -/
theorem match_lend_scenario2_eval :
    ((OrderBook.new.add_order ordB1).bind
        (fun b => b.add_order ordB2)) = some bookB12 ∧
      matchLend bookB12 lendL = some none :=
  ⟨rfl, rfl⟩

/-- Witness for C1 on the two-order book of scenario 2. -/
theorem match_lend_refines_spec_witness :
    (∀ o ∈ bookB12.orders_by_vtl,
        0 < o.vtl_range.min.den ∧ 0 < o.vtl_range.max.den) ∧
      (0 < lendL.vtl_range.min.den ∧ 0 < lendL.vtl_range.max.den) ∧
      bookB12.orders_by_vtl.Pairwise keyLE ∧
      (∀ o ∈ bookB12.orders_by_vtl,
        scanOK o lendL.vtl_range.min lendL.vtl_range.max) ∧
      cmpOK lendL.vtl_range.min lendL.vtl_range.max ∧
      (matchLend bookB12 lendL = some (specMatchLend bookB12 lendL) ∧
        (bookB12.orders_by_vtl = [] → matchLend bookB12 lendL = some none)) :=
  ⟨by decide, by decide, by decide, by decide, by decide,
    match_lend_refines_spec bookB12 lendL (by decide) (by decide) (by decide)
      (by decide) (by decide)⟩

/-- Witness for C3 on scenario 1: the general theorem applied to the
one-order lend book, whose spec-side value evaluates to `L1`. -/
theorem match_borrow_refines_spec_witness :
    (∀ o ∈ bookL1.orders_by_vtl,
        0 < o.vtl_range.min.den ∧ 0 < o.vtl_range.max.den) ∧
      (0 < borrowO.vtl_range.min.den ∧ 0 < borrowO.vtl_range.max.den) ∧
      bookL1.orders_by_vtl.Pairwise keyLE ∧
      (∀ o ∈ bookL1.orders_by_vtl,
        scanOK o borrowO.vtl_range.min borrowO.vtl_range.max) ∧
      cmpOK borrowO.vtl_range.min borrowO.vtl_range.max ∧
      matchBorrow bookL1 borrowO = some (some ordL1) :=
  ⟨by decide, by decide, by decide, by decide, by decide,
    (match_borrow_refines_spec bookL1 borrowO (by decide) (by decide)
        (by decide) (by decide) (by decide)).trans (by decide)⟩

/-! ## Claim C4: sorted-insert machinery -/

theorem okey_lt_iff {o1 o2 : Order} :
    okey o1 < okey o2 ↔
      (rQ o1.vtl_range.min < rQ o2.vtl_range.min ∨
        (rQ o1.vtl_range.min = rQ o2.vtl_range.min ∧
          (rQ o1.vtl_range.max < rQ o2.vtl_range.max ∨
            (rQ o1.vtl_range.max = rQ o2.vtl_range.max ∧
              o1.order_id < o2.order_id)))) := by
  unfold okey
  rw [Prod.Lex.lt_iff]
  dsimp only
  rw [Prod.Lex.lt_iff]

theorem okey_eq_iff {o1 o2 : Order} :
    okey o1 = okey o2 ↔
      (rQ o1.vtl_range.min = rQ o2.vtl_range.min ∧
        (rQ o1.vtl_range.max = rQ o2.vtl_range.max ∧
          o1.order_id = o2.order_id)) := by
  unfold okey
  rw [toLex_inj, Prod.mk.injEq, toLex_inj, Prod.mk.injEq]

/-- Where the `add_order` comparator is defined (no overflow panic), it
computes the three-way comparison of the lexicographic sort keys. -/
theorem orderCmp_coherent {p o : Order}
    (hp1 : 0 < p.vtl_range.min.den) (hp2 : 0 < p.vtl_range.max.den)
    (ho1 : 0 < o.vtl_range.min.den) (ho2 : 0 < o.vtl_range.max.den)
    {c : Ordering} (h : orderCmp p o = some c) :
    c = cmp3 (okey p) (okey o) := by
  unfold orderCmp IntervalR.cmpo at h
  cases h1 : Rational.pcmp p.vtl_range.min o.vtl_range.min with
  | none => rw [h1] at h; cases h
  | some c1 =>
    rw [h1] at h
    simp only [Option.some_bind] at h
    have hc1 : c1 = cmp3 (rQ p.vtl_range.min) (rQ o.vtl_range.min) := by
      have hok := Rational.cmpOK_of_pcmp_some h1
      rw [Rational.pcmp_of_ok hok, cmp3_cross_eq_cmp3_rQ hp1 ho1] at h1
      exact (Option.some_inj.mp h1).symm
    by_cases he : c1 = .eq
    · rw [if_pos he] at h
      have hminq : rQ p.vtl_range.min = rQ o.vtl_range.min :=
        cmp3_eq_eq.mp (hc1.symm.trans he)
      cases h2 : Rational.pcmp p.vtl_range.max o.vtl_range.max with
      | none => rw [h2] at h; cases h
      | some c2 =>
        rw [h2] at h
        simp only [Option.map_some'] at h
        have hc2 : c2 = cmp3 (rQ p.vtl_range.max) (rQ o.vtl_range.max) := by
          have hok := Rational.cmpOK_of_pcmp_some h2
          rw [Rational.pcmp_of_ok hok, cmp3_cross_eq_cmp3_rQ hp2 ho2] at h2
          exact (Option.some_inj.mp h2).symm
        cases c2 with
        | lt =>
          rw [← (Option.some_inj.mp h)]
          have hmq : rQ p.vtl_range.max < rQ o.vtl_range.max :=
            cmp3_eq_lt.mp hc2.symm
          rw [if_pos (by decide : (Ordering.lt ≠ .eq))]
          exact (cmp3_eq_lt.mpr (okey_lt_iff.mpr
            (Or.inr ⟨hminq, Or.inl hmq⟩))).symm
        | gt =>
          rw [← (Option.some_inj.mp h)]
          have hmq : rQ o.vtl_range.max < rQ p.vtl_range.max :=
            cmp3_eq_gt.mp hc2.symm
          rw [if_pos (by decide : (Ordering.gt ≠ .eq))]
          exact (cmp3_eq_gt.mpr (okey_lt_iff.mpr
            (Or.inr ⟨hminq.symm, Or.inl hmq⟩))).symm
        | eq =>
          rw [← (Option.some_inj.mp h)]
          have hmq : rQ p.vtl_range.max = rQ o.vtl_range.max :=
            cmp3_eq_eq.mp hc2.symm
          rw [if_neg (by decide : ¬ (Ordering.eq ≠ .eq))]
          rcases lt_trichotomy p.order_id o.order_id with hid | hid | hid
          · rw [cmp3_eq_lt.mpr hid]
            exact (cmp3_eq_lt.mpr (okey_lt_iff.mpr
              (Or.inr ⟨hminq, Or.inr ⟨hmq, hid⟩⟩))).symm
          · rw [cmp3_eq_eq.mpr hid]
            exact (cmp3_eq_eq.mpr (okey_eq_iff.mpr
              ⟨hminq, hmq, hid⟩)).symm
          · rw [cmp3_eq_gt.mpr hid]
            exact (cmp3_eq_gt.mpr (okey_lt_iff.mpr
              (Or.inr ⟨hminq.symm, Or.inr ⟨hmq.symm, hid⟩⟩))).symm
    · rw [if_neg he] at h
      simp only [Option.map_some'] at h
      rw [← (Option.some_inj.mp h), if_pos he]
      cases c1 with
      | lt =>
        have hmq : rQ p.vtl_range.min < rQ o.vtl_range.min :=
          cmp3_eq_lt.mp hc1.symm
        exact (cmp3_eq_lt.mpr (okey_lt_iff.mpr (Or.inl hmq))).symm
      | gt =>
        have hmq : rQ o.vtl_range.min < rQ p.vtl_range.min :=
          cmp3_eq_gt.mp hc1.symm
        exact (cmp3_eq_gt.mpr (okey_lt_iff.mpr (Or.inl hmq))).symm
      | eq => exact absurd rfl he

set_option maxHeartbeats 1000000 in
theorem keyLE_iff_okey {o1 o2 : Order}
    (h1 : 0 < o1.vtl_range.min.den) (h2 : 0 < o1.vtl_range.max.den)
    (h3 : 0 < o2.vtl_range.min.den) (h4 : 0 < o2.vtl_range.max.den) :
    keyLE o1 o2 ↔ okey o1 ≤ okey o2 := by
  rw [le_iff_lt_or_eq, okey_lt_iff, okey_eq_iff]
  unfold keyLE reqP
  have e1 : (rltB o1.vtl_range.min o2.vtl_range.min = true) =
      (rQ o1.vtl_range.min < rQ o2.vtl_range.min) := by
    rw [rltB_eq_rQ h1 h3]
    exact propext decide_eq_true_iff
  have e2 : (o1.vtl_range.min.num * o2.vtl_range.min.den =
      o2.vtl_range.min.num * o1.vtl_range.min.den) =
      (rQ o1.vtl_range.min = rQ o2.vtl_range.min) :=
    propext (crossEq_iff_rQ h1 h3)
  have e3 : (rltB o1.vtl_range.max o2.vtl_range.max = true) =
      (rQ o1.vtl_range.max < rQ o2.vtl_range.max) := by
    rw [rltB_eq_rQ h2 h4]
    exact propext decide_eq_true_iff
  have e4 : (o1.vtl_range.max.num * o2.vtl_range.max.den =
      o2.vtl_range.max.num * o1.vtl_range.max.den) =
      (rQ o1.vtl_range.max = rQ o2.vtl_range.max) :=
    propext (crossEq_iff_rQ h2 h4)
  rw [e1, e2, e3, e4, le_iff_lt_or_eq]
  tauto

/-- The search loop with a comparator coherent with a sort key `k`, run on
a `k`-sorted list, returns (when it returns) an index that splits the list
against the probe key `t`. -/
theorem bsGo_sorted {α K : Type} [LinearOrder K] (k : α → K) (t : K)
    (f : α → Option Ordering) (xs : List α)
    (hf : ∀ x ∈ xs, ∀ c, f x = some c → c = cmp3 (k x) t)
    (hs : xs.Pairwise (fun a b => k a ≤ k b)) :
    ∀ fuel lo hi, lo ≤ hi → hi ≤ xs.length →
      (∀ i (h : i < xs.length), i < lo → k xs[i] < t) →
      (∀ i (h : i < xs.length), hi ≤ i → t < k xs[i]) →
      ∀ r, bsGo f xs fuel lo hi = some r →
        Sum.elim id id r ≤ xs.length ∧
          (∀ i (h : i < xs.length), i < Sum.elim id id r → k xs[i] ≤ t) ∧
          (∀ i (h : i < xs.length), Sum.elim id id r ≤ i → t ≤ k xs[i]) := by
  intro fuel
  induction fuel with
  | zero =>
    intro lo hi hlh hhl hlo hhi r hr
    unfold bsGo at hr
    by_cases h : lo < hi
    · rw [if_pos h] at hr; cases hr
    · rw [if_neg h] at hr
      have hre : r = Sum.inr lo := (Option.some_inj.mp hr).symm
      subst hre
      dsimp only [Sum.elim_inr, id_eq]
      exact ⟨by omega, fun i hi2 hil => (hlo i hi2 hil).le,
        fun i hi2 hli => (hhi i hi2 (by omega)).le⟩
  | succ fuel ih =>
    intro lo hi hlh hhl hlo hhi r hr
    by_cases h : lo < hi
    · have hmid : lo + (hi - lo) / 2 < hi := by omega
      have hmidlen : lo + (hi - lo) / 2 < xs.length := lt_of_lt_of_le hmid hhl
      unfold bsGo at hr
      rw [if_pos h, List.getElem?_eq_getElem hmidlen] at hr
      dsimp only at hr
      cases hfc : f (xs[lo + (hi - lo) / 2]) with
      | none =>
        rw [hfc] at hr
        cases hr
      | some c =>
        rw [hfc] at hr
        have hc := hf _ (List.getElem_mem hmidlen) c hfc
        cases c with
        | lt =>
          have hklt : k (xs[lo + (hi - lo) / 2]) < t :=
            cmp3_eq_lt.mp hc.symm
          have hr2 : bsGo f xs fuel (lo + (hi - lo) / 2 + 1) hi = some r := hr
          exact ih (lo + (hi - lo) / 2 + 1) hi (by omega) hhl
            (fun i hi2 hil => by
              rcases Nat.lt_succ_iff_lt_or_eq.mp hil with hlt | heq
              · exact lt_of_le_of_lt
                  (List.pairwise_iff_getElem.mp hs _ _ hi2 hmidlen hlt) hklt
              · subst heq
                exact hklt)
            hhi r hr2
        | eq =>
          have hkeq : k (xs[lo + (hi - lo) / 2]) = t :=
            cmp3_eq_eq.mp hc.symm
          have hr2 : some (Sum.inl (lo + (hi - lo) / 2) : Nat ⊕ Nat) =
              some r := hr
          have hre : r = Sum.inl (lo + (hi - lo) / 2) :=
            (Option.some_inj.mp hr2).symm
          subst hre
          dsimp only [Sum.elim_inl, id_eq]
          refine ⟨by omega, fun i hi2 hil => ?_, fun i hi2 hli => ?_⟩
          · rw [← hkeq]
            exact List.pairwise_iff_getElem.mp hs _ _ hi2 hmidlen hil
          · rcases Nat.eq_or_lt_of_le hli with heq | hlt
            · subst heq
              exact le_of_eq hkeq.symm
            · rw [← hkeq]
              exact List.pairwise_iff_getElem.mp hs _ _ hmidlen hi2 hlt
        | gt =>
          have hkgt : t < k (xs[lo + (hi - lo) / 2]) :=
            cmp3_eq_gt.mp hc.symm
          have hr2 : bsGo f xs fuel lo (lo + (hi - lo) / 2) = some r := hr
          exact ih lo (lo + (hi - lo) / 2)
            (by omega) (le_trans hmid.le hhl) hlo
            (fun i hi2 hmi => by
              rcases Nat.eq_or_lt_of_le hmi with heq | hlt
              · subst heq
                exact hkgt
              · exact lt_of_lt_of_le hkgt
                  (List.pairwise_iff_getElem.mp hs _ _ hmidlen hi2 hlt))
            r hr2
    · unfold bsGo at hr
      rw [if_neg h] at hr
      have hre : r = Sum.inr lo := (Option.some_inj.mp hr).symm
      subst hre
      dsimp only [Sum.elim_inr, id_eq]
      exact ⟨by omega, fun i hi2 hil => (hlo i hi2 hil).le,
        fun i hi2 hli => (hhi i hi2 (by omega)).le⟩

/-- Inserting at a position that splits a sorted list keeps it sorted. -/
theorem pairwise_insertAt {α : Type} (le' : α → α → Prop) (xs : List α)
    (t : α) (j : Nat) (hs : xs.Pairwise le')
    (h1 : ∀ i (h : i < xs.length), i < j → le' xs[i] t)
    (h2 : ∀ i (h : i < xs.length), j ≤ i → le' t xs[i]) :
    (xs.take j ++ t :: xs.drop j).Pairwise le' := by
  rw [List.pairwise_append]
  refine ⟨hs.take, ?_, ?_⟩
  · rw [List.pairwise_cons]
    refine ⟨fun y hy => ?_, hs.drop⟩
    obtain ⟨i, hilen, hiy⟩ := List.mem_iff_getElem.mp hy
    rw [List.getElem_drop] at hiy
    have hlen : j + i < xs.length := by
      have hx := hilen
      rw [List.length_drop] at hx
      omega
    rw [← hiy]
    exact h2 _ hlen (by omega)
  · intro a ha b hb
    obtain ⟨i, hilen, hia⟩ := List.mem_iff_getElem.mp ha
    have hitake : i < j := by
      have hx := hilen
      rw [List.length_take] at hx
      omega
    have hilen2 : i < xs.length := by
      have hx := hilen
      rw [List.length_take] at hx
      omega
    rw [List.getElem_take] at hia
    rcases List.mem_cons.mp hb with hbt | hbd
    · rw [← hia, hbt]
      exact h1 _ hilen2 hitake
    · obtain ⟨i2, hi2len, hi2b⟩ := List.mem_iff_getElem.mp hbd
      rw [List.getElem_drop] at hi2b
      have hlen2 : j + i2 < xs.length := by
        have hx := hi2len
        rw [List.length_drop] at hx
        omega
      rw [← hia, ← hi2b]
      exact List.pairwise_iff_getElem.mp hs _ _ hilen2 hlen2 (by omega)

theorem mem_insertAt {α : Type} {xs : List α} {t x : α} {j : Nat}
    (h : x ∈ xs.take j ++ t :: xs.drop j) : x = t ∨ x ∈ xs := by
  rcases List.mem_append.mp h with h1 | h1
  · exact Or.inr (List.take_subset _ _ h1)
  · rcases List.mem_cons.mp h1 with h2 | h2
    · exact Or.inl h2
    · exact Or.inr (List.drop_subset _ _ h2)

/-- One `add_order` call preserves the sort invariant (and the positive-
denominator representation invariant) of the range index. -/
theorem add_order_sorted_step {book : OrderBook} {o : Order} {b' : OrderBook}
    (hbdens : ∀ x ∈ book.orders_by_vtl,
      0 < x.vtl_range.min.den ∧ 0 < x.vtl_range.max.den)
    (hodens : 0 < o.vtl_range.min.den ∧ 0 < o.vtl_range.max.den)
    (hs : book.orders_by_vtl.Pairwise keyLE)
    (h : book.add_order o = some b') :
    b'.orders_by_vtl.Pairwise keyLE ∧
      ∀ x ∈ b'.orders_by_vtl,
        0 < x.vtl_range.min.den ∧ 0 < x.vtl_range.max.den := by
  unfold OrderBook.add_order at h
  by_cases hguard : book.orders_by_vtl.length = MAX_KEYS ∨
      book.orders_by_id.length = MAX_KEYS
  · rw [if_pos hguard] at h; cases h
  · rw [if_neg hguard] at h
    cases hbs : binSearchBy (fun probe => orderCmp probe o)
        book.orders_by_vtl with
    | none => rw [hbs] at h; cases h
    | some r =>
      rw [hbs] at h
      simp only [Option.some_bind] at h
      have hsK : book.orders_by_vtl.Pairwise
          (fun a b => okey a ≤ okey b) :=
        hs.imp_of_mem (fun ha hb hr => (keyLE_iff_okey (hbdens _ ha).1
          (hbdens _ ha).2 (hbdens _ hb).1 (hbdens _ hb).2).mp hr)
      have hbounds := bsGo_sorted okey (okey o)
        (fun probe => orderCmp probe o) book.orders_by_vtl
        (fun x hx c hc => orderCmp_coherent (hbdens _ hx).1 (hbdens _ hx).2
          hodens.1 hodens.2 hc)
        hsK book.orders_by_vtl.length 0 book.orders_by_vtl.length
        (Nat.zero_le _) le_rfl
        (fun i hi2 hil => absurd hil (by omega))
        (fun i hi2 hli => absurd hli (by omega))
        r hbs
      obtain ⟨hjlen, hle1, hle2⟩ := hbounds
      unfold hvInsert at h
      rw [if_neg (by omega)] at h
      by_cases hfull : MAX_ORDERS ≤ book.orders_by_vtl.length
      · rw [if_pos hfull] at h
        simp only [Option.map_some'] at h
        rw [← Option.some_inj.mp h]
        exact ⟨hs, hbdens⟩
      · rw [if_neg hfull] at h
        simp only [Option.map_some'] at h
        rw [← Option.some_inj.mp h]
        constructor
        · exact pairwise_insertAt keyLE book.orders_by_vtl o
            (Sum.elim id id r) hs
            (fun i hi2 hil => (keyLE_iff_okey (hbdens _ (List.getElem_mem
              hi2)).1 (hbdens _ (List.getElem_mem hi2)).2 hodens.1
              hodens.2).mpr (hle1 i hi2 hil))
            (fun i hi2 hli => (keyLE_iff_okey hodens.1 hodens.2
              (hbdens _ (List.getElem_mem hi2)).1
              (hbdens _ (List.getElem_mem hi2)).2).mpr (hle2 i hi2 hli))
        · intro x hx
          rcases mem_insertAt hx with hxo | hxm
          · rw [hxo]
            exact hodens
          · exact hbdens _ hxm

/-- Folding `add_order` over a list of orders from any invariant-satisfying
book preserves the sort invariant. -/
theorem add_order_fold_aux (orders : List Order) :
    ∀ acc : OrderBook,
      (∀ x ∈ acc.orders_by_vtl,
        0 < x.vtl_range.min.den ∧ 0 < x.vtl_range.max.den) →
      acc.orders_by_vtl.Pairwise keyLE →
      (∀ o ∈ orders, 0 < o.vtl_range.min.den ∧ 0 < o.vtl_range.max.den) →
      ∀ book, List.foldlM OrderBook.add_order acc orders = some book →
        book.orders_by_vtl.Pairwise keyLE := by
  induction orders with
  | nil =>
    intro acc hdens hsort _ book h
    simp only [List.foldlM_nil] at h
    rw [← Option.some_inj.mp h]
    exact hsort
  | cons o rest ih =>
    intro acc hdens hsort hodens book h
    rw [List.foldlM_cons] at h
    cases hstep : acc.add_order o with
    | none =>
      rw [hstep] at h
      cases h
    | some acc' =>
      rw [hstep] at h
      obtain ⟨hsort', hdens'⟩ := add_order_sorted_step hdens
        (hodens o (List.mem_cons_self o rest)) hsort hstep
      exact ih acc' hdens' hsort'
        (fun x hx => hodens x (List.mem_cons_of_mem _ hx)) book h

/-- C4: after any sequence of `add_order` calls on an initially empty book
that completes (in particular stays within capacity, so no call aborts),
`orders_by_vtl` is non-decreasing under the lexicographic key
`(vtl_range, order_id)`, with `vtl_range` itself ordered lexicographically
by `(min, max)` (rationals compared by value; the orders' denominators are
positive, as every `Rational` the program builds is). -/
theorem add_order_sort_invariant (orders : List Order) (book : OrderBook)
    (hdens : ∀ o ∈ orders, 0 < o.vtl_range.min.den ∧ 0 < o.vtl_range.max.den)
    (h : List.foldlM OrderBook.add_order OrderBook.new orders = some book) :
    book.orders_by_vtl.Pairwise keyLE :=
  add_order_fold_aux orders OrderBook.new
    (fun x hx => absurd hx (List.not_mem_nil x)) List.Pairwise.nil hdens book h

/-- Witness for C4: folding the two scenario-2 orders into the empty book
yields the (sorted) book `bookB12`. -/
theorem add_order_sort_invariant_witness :
    (∀ o ∈ [ordB1, ordB2],
        0 < o.vtl_range.min.den ∧ 0 < o.vtl_range.max.den) ∧
      List.foldlM OrderBook.add_order OrderBook.new [ordB1, ordB2] =
        some bookB12 ∧
      bookB12.orders_by_vtl.Pairwise keyLE :=
  ⟨by decide, rfl,
    add_order_sort_invariant [ordB1, ordB2] bookB12 (by decide) rfl⟩

/-! ## Claim C5: `add_order` capacity behaviour -/

/-- With a comparator that never panics and enough fuel, the search loop
always returns, with an index inside the window. -/
theorem bsGo_total {α : Type} (f : α → Option Ordering) (xs : List α)
    (hf : ∀ x ∈ xs, f x ≠ none) :
    ∀ fuel lo hi, hi - lo ≤ fuel → lo ≤ hi → hi ≤ xs.length →
      ∃ r, bsGo f xs fuel lo hi = some r ∧ Sum.elim id id r ≤ hi := by
  intro fuel
  induction fuel with
  | zero =>
    intro lo hi hf2 hlh hhl
    unfold bsGo
    rw [if_neg (by omega)]
    exact ⟨Sum.inr lo, rfl, by simpa using hlh⟩
  | succ fuel ih =>
    intro lo hi hf2 hlh hhl
    by_cases h : lo < hi
    · have hmid : lo + (hi - lo) / 2 < hi := by omega
      have hmidlen : lo + (hi - lo) / 2 < xs.length := lt_of_lt_of_le hmid hhl
      unfold bsGo
      rw [if_pos h, List.getElem?_eq_getElem hmidlen]
      dsimp only
      cases hfc : f (xs[lo + (hi - lo) / 2]) with
      | none => exact absurd hfc (hf _ (List.getElem_mem hmidlen))
      | some c =>
        cases c with
        | lt =>
          obtain ⟨r, hr, hrb⟩ := ih (lo + (hi - lo) / 2 + 1) hi
            (by omega) (by omega) hhl
          exact ⟨r, hr, hrb⟩
        | eq => exact ⟨Sum.inl (lo + (hi - lo) / 2), rfl, by simpa using hmid.le⟩
        | gt =>
          obtain ⟨r, hr, hrb⟩ := ih lo (lo + (hi - lo) / 2)
            (by omega) (by omega) (le_trans hmid.le hhl)
          exact ⟨r, hr, le_trans hrb hmid.le⟩
    · unfold bsGo
      rw [if_neg h]
      exact ⟨Sum.inr lo, rfl, by simpa using hlh⟩

theorem lookupId_map_replace (m : List (List Char × Order)) (k : List Char)
    (v : Order) :
    lookupId (m.map (fun p => if p.1 = k then (p.1, v) else p)) k =
      (lookupId m k).map (fun _ => v) := by
  induction m with
  | nil => rfl
  | cons p rest ih =>
    by_cases hp : p.1 = k
    · unfold lookupId
      rw [List.map_cons, List.find?_cons, List.find?_cons]
      rw [if_pos hp]
      have h1 : (decide ((p.1, v).1 = k)) = true := by simpa using hp
      rw [h1]
      rfl
    · unfold lookupId
      rw [List.map_cons, List.find?_cons, List.find?_cons]
      rw [if_neg hp]
      have h2 : (decide (p.1 = k)) = false := by simpa using hp
      rw [h2]
      exact ih

theorem lookupId_append_self (m : List (List Char × Order)) (k : List Char)
    (v : Order) (h : lookupId m k = none) :
    lookupId (m ++ [(k, v)]) k = some v := by
  induction m with
  | nil => simp [lookupId]
  | cons p rest ih =>
    unfold lookupId at h ⊢
    rw [List.cons_append, List.find?_cons]
    rw [List.find?_cons] at h
    by_cases hp : p.1 = k
    · rw [decide_eq_true hp] at h
      cases h
    · rw [decide_eq_false hp] at h ⊢
      exact ih h

theorem lookupId_mapInsert (m : List (List Char × Order)) (k : List Char)
    (v : Order) (hlen : m.length < MAX_KEYS) :
    lookupId (mapInsert m k v) k = some v := by
  unfold mapInsert
  by_cases hmem : (m.find? (fun p => decide (p.1 = k))).isSome
  · rw [if_pos hmem]
    rw [lookupId_map_replace]
    obtain ⟨p, hp⟩ := Option.isSome_iff_exists.mp hmem
    unfold lookupId
    rw [hp]
    rfl
  · rw [if_neg hmem, if_pos hlen]
    apply lookupId_append_self
    unfold lookupId
    rw [Option.not_isSome_iff_eq_none.mp hmem]
    rfl

/-- C5 (amended): on a book satisfying the capacity invariant, provided
every comparison the sorted insert performs is defined (no cross-product
overflow), `add_order` aborts exactly when either index already holds
`MAX_KEYS` (16) orders — the single configured maximum shared by both
indices — and an insert strictly below that maximum succeeds and adds the
order to both indices. -/
theorem add_order_capacity_spec (book : OrderBook) (o : Order)
    (hcmp : ∀ p ∈ book.orders_by_vtl, orderCmp p o ≠ none)
    (hlen : book.orders_by_vtl.length ≤ MAX_KEYS ∧
      book.orders_by_id.length ≤ MAX_KEYS) :
    (book.add_order o = none ↔
      (book.orders_by_vtl.length = MAX_KEYS ∨
        book.orders_by_id.length = MAX_KEYS)) ∧
      (∀ b', book.add_order o = some b' →
        o ∈ b'.orders_by_vtl ∧
          b'.orders_by_vtl.length = book.orders_by_vtl.length + 1 ∧
          lookupId b'.orders_by_id o.order_id = some o) := by
  unfold OrderBook.add_order
  by_cases hguard : book.orders_by_vtl.length = MAX_KEYS ∨
      book.orders_by_id.length = MAX_KEYS
  · rw [if_pos hguard]
    exact ⟨⟨fun _ => hguard, fun _ => rfl⟩, fun b' hb => by cases hb⟩
  · rw [if_neg hguard]
    obtain ⟨r, hr, hrb⟩ := bsGo_total (fun probe => orderCmp probe o)
      book.orders_by_vtl hcmp book.orders_by_vtl.length 0
      book.orders_by_vtl.length (by omega) (Nat.zero_le _) le_rfl
    have hr' : binSearchBy (fun probe => orderCmp probe o)
        book.orders_by_vtl = some r := hr
    rw [hr']
    simp only [Option.some_bind]
    unfold hvInsert
    rw [if_neg (by omega)]
    have hnotfull : ¬ MAX_ORDERS ≤ book.orders_by_vtl.length := by
      unfold MAX_ORDERS
      unfold MAX_KEYS at hlen
      omega
    rw [if_neg hnotfull]
    simp only [Option.map_some']
    constructor
    · constructor
      · intro hc
        cases hc
      · intro hc
        exact absurd hc hguard
    · intro b' hb
      rw [← Option.some_inj.mp hb]
      refine ⟨?_, ?_, ?_⟩
      · exact List.mem_append.mpr (Or.inr (List.mem_cons_self _ _))
      · rw [List.length_append, List.length_take, List.length_cons,
          List.length_drop]
        omega
      · exact lookupId_mapInsert book.orders_by_id o.order_id o
          (by unfold MAX_KEYS at hguard hlen ⊢; omega)

/-- Counterexample to C5 as stated: a one-order book (far below the
16-order maximum) whose resident order has a huge range endpoint; adding a
second order aborts because the sorted insert's comparison cross product
`2^62 * 2^62` overflows `i64` — a failure below capacity. -/
def bigOrd1 : Order :=
  { order_id := ['G', '1'], order_type := .BORROW, status := .OPEN,
    asset := ['X'], collateral := 0, amount := 100, remaining_amount := 100,
    vtl_range := ⟨⟨2 ^ 62, 1⟩, ⟨2 ^ 62, 1⟩⟩ }

def bigOrd2 : Order :=
  { order_id := ['G', '2'], order_type := .BORROW, status := .OPEN,
    asset := ['X'], collateral := 0, amount := 100, remaining_amount := 100,
    vtl_range := ⟨⟨3, 2 ^ 62⟩, ⟨3, 2 ^ 62⟩⟩ }

def bigBook : OrderBook := ⟨[bigOrd1], [(['G', '1'], bigOrd1)]⟩

/-- C5 counterexample: `add_order` aborts on a book of length 1 (both
indices far below the shared maximum of 16). -/
theorem add_order_overflow_abort_counterexample :
    OrderBook.new.add_order bigOrd1 = some bigBook ∧
      bigBook.add_order bigOrd2 = none ∧
      bigBook.orders_by_vtl.length = 1 ∧
      bigBook.orders_by_id.length = 1 ∧ (1 : Nat) ≠ MAX_KEYS :=
  ⟨rfl, rfl, rfl, rfl, by decide⟩

/-- Witness for C5 on the one-order lend book `bookL1`. -/
theorem add_order_capacity_spec_witness :
    (∀ p ∈ bookL1.orders_by_vtl, orderCmp p ordA ≠ none) ∧
      (bookL1.orders_by_vtl.length ≤ MAX_KEYS ∧
        bookL1.orders_by_id.length ≤ MAX_KEYS) ∧
      ((bookL1.add_order ordA = none ↔
        (bookL1.orders_by_vtl.length = MAX_KEYS ∨
          bookL1.orders_by_id.length = MAX_KEYS)) ∧
        (∀ b', bookL1.add_order ordA = some b' →
          ordA ∈ b'.orders_by_vtl ∧
            b'.orders_by_vtl.length = bookL1.orders_by_vtl.length + 1 ∧
            lookupId b'.orders_by_id ordA.order_id = some ordA)) :=
  ⟨by decide, by decide,
    add_order_capacity_spec bookL1 ordA (by decide) (by decide)⟩
